import Mathlib

/-!
# Tic-tac-toe with a negamax engine (tictactoe.c)

A shallow embedding of the game core of `tictactoe.c`: the global game state,
the outcome test `checkVictory`, the speculative move stack
(`negamaxMakeMove` / `negamaxUndoMove`), the exhaustive search
(`applyNegamax` / `runComputer`) and the turn-taking functions
(`humanMove`, `computerMove`, `winOrDraw`, `startGame`).

Modelling conventions.
* C `int` values are `Int`; no value in the program leaves the range of a
  machine integer, so no wrap-around is modelled.
* `int ttt_board[9]` is a function `Fin 9 → Int`, `int board_stack[100]` a
  function `Fin 100 → Int`.  An access whose index is an arbitrary `int`
  (`board_stack[stackTop++]`, `ttt_board[pos]`) is checked against the array
  bounds; an out-of-bounds access has no defined behaviour in C and makes the
  modelled function return `none`.
* Recursive C functions carry a fuel argument; running out of fuel is `none`.
* Screen output (curses drawing, `refresh`, `wait`) has no effect on the game
  state and is left out.
-/

namespace TicTacToe

/-! ## Global state -/

/-- The game board `int ttt_board[9]`; `-1` is an empty square, `1` and `2`
are the marks of player 1 (O) and player 2 (X). -/
abbrev Board := Fin 9 → Int

/-- The array `int board_stack[100]` of speculative moves. -/
abbrev Stack := Fin 100 → Int

/-- The enumeration `enum Player {Human, Computer}`. -/
inductive Player where
  | Human
  | Computer
  deriving DecidableEq, Repr

/-- The global variables of `tictactoe.c`, together with the function-static
`bestMove` of `runComputer`. -/
structure State where
  currPlayer : Int
  negamaxCurrPlayer : Int
  player1 : Player
  player2 : Player
  computerEnabled : Int
  currGridX : Int
  currGridY : Int
  unoccupiedSq : Int
  stackTop : Int
  ttt_board : Board
  board_stack : Stack
  bestMove : Int

/-- The table `const int scoring[8][3]` of the eight winning lines. -/
def scoring : List (Fin 9 × Fin 9 × Fin 9) :=
  [(0, 1, 2), (3, 4, 5), (6, 7, 8), (0, 3, 6), (1, 4, 7), (2, 5, 8), (0, 4, 8), (2, 4, 6)]

/-- The index `i` of a C array of `n` elements, when `0 ≤ i < n`. -/
def index? (n : Nat) (i : Int) : Option (Fin n) :=
  if h : 0 ≤ i ∧ i.toNat < n then some ⟨i.toNat, h.2⟩ else none

/-! ## Outcome test -/

/-- The condition of the `if` in the loop of `checkVictory` for one row of
`scoring`. -/
def lineWon (b : Board) (l : Fin 9 × Fin 9 × Fin 9) : Prop :=
  b l.1 ≠ -1 ∧ b l.1 = b l.2.1 ∧ b l.2.1 = b l.2.2

instance (b : Board) (l : Fin 9 × Fin 9 × Fin 9) : Decidable (lineWon b l) := by
  unfold lineWon; infer_instance

/-- The `for` loop of `checkVictory` over the rows of a line table: the mark on
the first completed line, returned from inside the loop. -/
def checkLines (b : Board) : List (Fin 9 × Fin 9 × Fin 9) → Option Int
  | [] => none
  | l :: rest => if lineWon b l then some (b l.1) else checkLines b rest

/-- The body of `checkVictory` on a board and an empty-square counter, scanning
the given line table. -/
def checkVictoryWith (table : List (Fin 9 × Fin 9 × Fin 9)) (b : Board) (u : Int) : Int :=
  match checkLines b table with
  | some w => w
  | none => if u = 0 then 3 else 0

/-- The function `checkVictory` as a function of the board and the counter
`unoccupiedSq`: 0 = ongoing, 1 = O wins, 2 = X wins, 3 = draw. -/
def checkVictoryOn (b : Board) (u : Int) : Int :=
  checkVictoryWith scoring b u

/-- The function `checkVictory()` on the global state. -/
def checkVictory (s : State) : Int :=
  checkVictoryOn s.ttt_board s.unoccupiedSq

/-! ### The outcome evaluator as the specification words it -/

/-- A side of the game. -/
inductive Side where
  | First
  | Second
  deriving DecidableEq, Repr

/-- The outcome of a board. -/
inductive Outcome where
  | Ongoing
  | Won (side : Side)
  | Drawn
  deriving DecidableEq, Repr

/-- The content of a cell: `none` for an empty cell, otherwise the side whose
mark it holds. -/
def cellSide (v : Int) : Option Side :=
  if v = 1 then some Side.First else if v = 2 then some Side.Second else none

/-- The integer `checkVictory` uses for a side. -/
def Side.code : Side → Int
  | Side.First => 1
  | Side.Second => 2

/-- The integer `checkVictory` uses for an outcome. -/
def Outcome.code : Outcome → Int
  | Outcome.Ongoing => 0
  | Outcome.Won sd => sd.code
  | Outcome.Drawn => 3

/-- The side that holds all three cells of a line, if the three cells are
non-empty and hold the same side. -/
def lineOwner (b : Board) (l : Fin 9 × Fin 9 × Fin 9) : Option Side :=
  match cellSide (b l.1), cellSide (b l.2.1), cellSide (b l.2.2) with
  | some x, some y, some z => if x = y ∧ y = z then some x else none
  | _, _, _ => none

/-- The evaluator of the specification: the owner of the first line, in the
fixed order of the table, whose three cells are non-empty and hold the same
side; otherwise `Drawn` when no cell is empty, otherwise `Ongoing`. -/
def evaluateSpec (b : Board) (emptyCount : Int) : Outcome :=
  match scoring.findSome? (lineOwner b) with
  | some sd => Outcome.Won sd
  | none => if emptyCount = 0 then Outcome.Drawn else Outcome.Ongoing

/-- Every cell of the board is `-1`, `1` or `2`. -/
def CellsValid (b : Board) : Prop :=
  ∀ i, b i = -1 ∨ b i = 1 ∨ b i = 2

instance (b : Board) : Decidable (CellsValid b) := by
  unfold CellsValid; infer_instance

/-! ## The speculative move stack -/

/-- The function `negamaxMakeMove(pos, side)`: mark the board, decrement the
counter, push the move and switch the virtual player. -/
def negamaxMakeMove (pos side : Int) (s : State) : Option State :=
  match index? 9 pos with
  | none => none
  | some i =>
    match index? 100 s.stackTop with
    | none => none
    | some k =>
      some { s with
        ttt_board := Function.update s.ttt_board i side
        unoccupiedSq := s.unoccupiedSq - 1
        board_stack := Function.update s.board_stack k pos
        stackTop := s.stackTop + 1
        negamaxCurrPlayer := Int.xor s.negamaxCurrPlayer 3 }

/-- The function `negamaxUndoMove()`: pop the stack, empty the popped square,
increment the counter and switch the virtual player. -/
def negamaxUndoMove (s : State) : Option State :=
  match index? 100 (s.stackTop - 1) with
  | none => none
  | some k =>
    match index? 9 (s.board_stack k) with
    | none => none
    | some i =>
      some { s with
        stackTop := s.stackTop - 1
        ttt_board := Function.update s.ttt_board i (-1)
        unoccupiedSq := s.unoccupiedSq + 1
        negamaxCurrPlayer := Int.xor s.negamaxCurrPlayer 3 }

/-! ## The search -/

/-- The first `for` loop of `applyNegamax` and of `runComputer`, over the given
squares in order: the list of `scores[i]`, where `search` is the recursive call
`applyNegamax()`. -/
def scoreLoop (search : State → Option (Int × State)) :
    List (Fin 9) → State → Option (List Int × State)
  | [], s => some ([], s)
  | i :: rest, s =>
    if s.ttt_board i = -1 then
      match negamaxMakeMove (i : Nat) s.negamaxCurrPlayer s with
      | none => none
      | some s1 =>
        match search s1 with
        | none => none
        | some (v, s2) =>
          match negamaxUndoMove s2 with
          | none => none
          | some s3 =>
            match scoreLoop search rest s3 with
            | none => none
            | some (scores, s4) => some (-v :: scores, s4)
    else
      match scoreLoop search rest s with
      | none => none
      | some (scores, s4) => some (-2 :: scores, s4)

/-- The second `for` loop of `applyNegamax`: the running maximum `maxScore`
over the scores. -/
def maxScoreLoop : List Int → Int → Int
  | [], maxScore => maxScore
  | sc :: rest, maxScore => maxScoreLoop rest (if sc > maxScore then sc else maxScore)

/-- The second `for` loop of `runComputer`, from index `i` on: the final
`(maxScore, bestMove)`. -/
def bestMoveLoop : List Int → Int → Int → Int → Int × Int
  | [], _, maxScore, bestMove => (maxScore, bestMove)
  | sc :: rest, i, maxScore, bestMove =>
    if sc > maxScore then bestMoveLoop rest (i + 1) sc i
    else bestMoveLoop rest (i + 1) maxScore bestMove

/-- The function `applyNegamax()`: the returned score and the state it leaves. -/
def applyNegamax : Nat → State → Option (Int × State)
  | 0, _ => none
  | fuel + 1, s =>
    let state := checkVictory s
    if state = 1 ∨ state = 2 then
      if s.negamaxCurrPlayer = state then some (1, s) else some (-1, s)
    else if state = 3 then some (0, s)
    else
      match scoreLoop (applyNegamax fuel) (List.finRange 9) s with
      | none => none
      | some (scores, s1) => some (maxScoreLoop scores (-3), s1)

/-- The first loop of `runComputer()`: the array `scores` and the state after
the loop. -/
def runComputerScores (fuel : Nat) (s : State) : Option (List Int × State) :=
  scoreLoop (applyNegamax fuel) (List.finRange 9) s

/-- The function `runComputer()`: the value handed to `pthread_exit`, which is
the static `bestMove`, and the state the thread leaves. -/
def runComputer (fuel : Nat) (s : State) : Option (Int × State) :=
  match runComputerScores fuel s with
  | none => none
  | some (scores, s1) =>
    let r := bestMoveLoop scores 0 (-3) s1.bestMove
    some (r.2, { s1 with bestMove := r.2 })

/-- The final `maxScore` of `runComputer()`: the value of the position for the
side to move. -/
def runComputerValue (fuel : Nat) (s : State) : Option Int :=
  match runComputerScores fuel s with
  | none => none
  | some (scores, s1) => some (bestMoveLoop scores 0 (-3) s1.bestMove).1

/-! ## The value computed by the search -/

/-- The number of empty squares of a board. -/
def emptyCount (b : Board) : Nat :=
  (Finset.univ.filter (fun i => b i = -1)).card

/-- The side is player 1 or player 2. -/
def SideValid (p : Int) : Prop := p = 1 ∨ p = 2

instance (p : Int) : Decidable (SideValid p) := by
  unfold SideValid; infer_instance

/-- The score `scores[i]` that the first loop of `applyNegamax` assigns to
square `i`, given the value `val` that the recursive call returns on the board
after the move. -/
def scoreOf (val : Board → Int → Int → Int) (b : Board) (u p : Int) (i : Fin 9) : Int :=
  if b i = -1 then - val (Function.update b i p) (u - 1) (Int.xor p 3) else -2

/-- The result of `applyNegamax()` as a function of what it reads: the board,
the counter `unoccupiedSq` and the virtual player `negamaxCurrPlayer`. -/
def negamaxValue : Nat → Board → Int → Int → Int
  | 0, _, _, _ => 0
  | fuel + 1, b, u, p =>
    let state := checkVictoryOn b u
    if state = 1 ∨ state = 2 then
      if p = state then 1 else -1
    else if state = 3 then 0
    else maxScoreLoop ((List.finRange 9).map (scoreOf (negamaxValue fuel) b u p)) (-3)

/-- The state is one a search can start from: the stack pointer is inside
`board_stack` with room for one entry per empty square, and the virtual player
is 1 or 2. -/
def SearchReady (s : State) : Prop :=
  0 ≤ s.stackTop ∧ s.stackTop + (emptyCount s.ttt_board : Int) ≤ 100 ∧
    SideValid s.negamaxCurrPlayer

/-- The stack `bs` agrees with the stack of `s` below the stack pointer of `s`. -/
def StackKept (s : State) (bs : Stack) : Prop :=
  ∀ j : Fin 100, ((j : Nat) : Int) < s.stackTop → bs j = s.board_stack j

/-- The call `search` behaves on every ready state with fewer than `n` empty
squares as a function `val` of board, counter and side, and changes nothing but
the entries of `board_stack` at and above the stack pointer. -/
def SearchOK (search : State → Option (Int × State)) (val : Board → Int → Int → Int)
    (n : Nat) : Prop :=
  ∀ s : State, SearchReady s → emptyCount s.ttt_board < n →
    ∃ bs, search s = some (val s.ttt_board s.unoccupiedSq s.negamaxCurrPlayer,
        { s with board_stack := bs }) ∧ StackKept s bs

/-- The score of square `pos` as the first loop of `runComputer` computes it
from state `s`: place the mover's mark with `negamaxMakeMove`, call
`applyNegamax()` and negate its result. -/
def moveScore (fuel : Nat) (s : State) (pos : Int) : Option Int :=
  match negamaxMakeMove pos s.negamaxCurrPlayer s with
  | none => none
  | some s1 =>
    match applyNegamax fuel s1 with
    | none => none
    | some (v, _) => some (-v)

/-- The counter `unoccupiedSq` equals the number of empty squares. -/
def CountExact (s : State) : Prop :=
  s.unoccupiedSq = (emptyCount s.ttt_board : Int)

/-! ## Game set-up -/

/-- The globals at program start: C zero-initialises them, `stackTop` is
initialised to 0 and the static `bestMove` to 0. -/
def initialState : State :=
  ⟨0, 0, Player.Human, Player.Human, 0, 0, 0, 0, 0, fun _ => 0, fun _ => 0, 0⟩

/-- The state change of `drawboard()`: every square empty, nine empty squares. -/
def drawboard (s : State) : State :=
  { s with ttt_board := fun _ => -1, unoccupiedSq := 9 }

/-- The function `setPlayer(one, two)`. -/
def setPlayer (one two : Player) (s : State) : State :=
  { s with
    player1 := one
    player2 := two
    currPlayer := 1
    computerEnabled := if one = Player.Computer ∨ two = Player.Computer then 1 else 0 }

/-- A state holding the given board, with an exact counter, an empty stack and
the given side to move in the search. -/
def stateOf (b : Board) (side : Int) : State :=
  { initialState with
    ttt_board := b
    unoccupiedSq := (emptyCount b : Int)
    currPlayer := side
    negamaxCurrPlayer := side }

/-- A full board without a completed line. -/
def drawnBoard : Board := ![1, 2, 1, 1, 2, 2, 2, 1, 1]

/-- A board already won by player 1 that still has empty squares. -/
def wonBoard : Board := ![1, 1, 1, 2, 2, -1, -1, -1, -1]

/-- The board of the second scenario of the specification: player 1 holds
squares 0 and 1, player 2 holds squares 3 and 4. -/
def scenarioBoard : Board := ![1, 1, -1, 2, 2, -1, -1, -1, -1]

/-! ## A checker for bounds on the search value

The value of the empty board is not computed by unfolding the full game tree
of `applyNegamax`.  Instead a Boolean procedure on boards coded as lists of
natural numbers (0 = empty, 1, 2 = marks) certifies that the value is at least
0, or at most 0, and is proved sound with respect to `negamaxValue`. -/

/-- The cell coded by a natural number: 0 is the empty cell `-1`, 1 and 2 are
the marks. -/
def cellOf (c : Nat) : Int := if c = 0 then -1 else (c : Int)

/-- The board coded by a list of nine cell codes. -/
def boardOf (cs : List Nat) : Board := fun i => cellOf (cs.getD i 0)

/-- The line test of `checkVictory` on cell codes. -/
def lineN (a b c : Nat) : Bool := a != 0 && a == b && b == c

/-- The loop of `checkVictory` on cell codes: the code on the first completed
line, or 0. -/
def firstLineN (c0 c1 c2 c3 c4 c5 c6 c7 c8 : Nat) : Nat :=
  if lineN c0 c1 c2 then c0 else if lineN c3 c4 c5 then c3 else if lineN c6 c7 c8 then c6
  else if lineN c0 c3 c6 then c0 else if lineN c1 c4 c7 then c1 else if lineN c2 c5 c8 then c2
  else if lineN c0 c4 c8 then c0 else if lineN c2 c4 c6 then c2 else 0

/-- The bound checker.  With `ge = true` it certifies that the value of the
position for the mover `p` is at least 0: the mover has won or drawn, or some
move leads to a position whose value for the opponent `q` is at most 0.  With
`ge = false` it certifies that the value is at most 0: the mover has lost or
drawn, or every move leads to a position whose value for `q` is at least 0. -/
def boundCheck : Nat → Bool → Nat → Nat → List Nat → Nat → Bool
  | f + 1, ge, p, q, [c0, c1, c2, c3, c4, c5, c6, c7, c8], u =>
    match firstLineN c0 c1 c2 c3 c4 c5 c6 c7 c8 with
    | 0 =>
      if u == 0 then true
      else if ge then
        (c0 == 0 && boundCheck f false q p [p, c1, c2, c3, c4, c5, c6, c7, c8] (u - 1)) ||
        (c1 == 0 && boundCheck f false q p [c0, p, c2, c3, c4, c5, c6, c7, c8] (u - 1)) ||
        (c2 == 0 && boundCheck f false q p [c0, c1, p, c3, c4, c5, c6, c7, c8] (u - 1)) ||
        (c3 == 0 && boundCheck f false q p [c0, c1, c2, p, c4, c5, c6, c7, c8] (u - 1)) ||
        (c4 == 0 && boundCheck f false q p [c0, c1, c2, c3, p, c5, c6, c7, c8] (u - 1)) ||
        (c5 == 0 && boundCheck f false q p [c0, c1, c2, c3, c4, p, c6, c7, c8] (u - 1)) ||
        (c6 == 0 && boundCheck f false q p [c0, c1, c2, c3, c4, c5, p, c7, c8] (u - 1)) ||
        (c7 == 0 && boundCheck f false q p [c0, c1, c2, c3, c4, c5, c6, p, c8] (u - 1)) ||
        (c8 == 0 && boundCheck f false q p [c0, c1, c2, c3, c4, c5, c6, c7, p] (u - 1))
      else
        (c0 != 0 || boundCheck f true q p [p, c1, c2, c3, c4, c5, c6, c7, c8] (u - 1)) &&
        (c1 != 0 || boundCheck f true q p [c0, p, c2, c3, c4, c5, c6, c7, c8] (u - 1)) &&
        (c2 != 0 || boundCheck f true q p [c0, c1, p, c3, c4, c5, c6, c7, c8] (u - 1)) &&
        (c3 != 0 || boundCheck f true q p [c0, c1, c2, p, c4, c5, c6, c7, c8] (u - 1)) &&
        (c4 != 0 || boundCheck f true q p [c0, c1, c2, c3, p, c5, c6, c7, c8] (u - 1)) &&
        (c5 != 0 || boundCheck f true q p [c0, c1, c2, c3, c4, p, c6, c7, c8] (u - 1)) &&
        (c6 != 0 || boundCheck f true q p [c0, c1, c2, c3, c4, c5, p, c7, c8] (u - 1)) &&
        (c7 != 0 || boundCheck f true q p [c0, c1, c2, c3, c4, c5, c6, p, c8] (u - 1)) &&
        (c8 != 0 || boundCheck f true q p [c0, c1, c2, c3, c4, c5, c6, c7, p] (u - 1))
    | w + 1 => if ge then w + 1 == p else w + 1 != p
  | _, _, _, _, _, _ => false

/-- The board after `drawboard()`: every square empty. -/
def emptyBoard : Board := fun _ => -1

/-! ## Turn taking

The functions `humanMove`, `computerMove`, `winOrDraw` and `startGame` call
each other and read keys with `getch()`.  They are modelled as functions of a
fuel, the state and the list of keys still to be read, and yield a `Run`: the
function returned to its caller, the program called `exit`, or the program is
blocked in `getch()` because the keys are used up. -/

/-- The key codes `getch()` can yield, as far as the program tells them apart. -/
inductive Key where
  | left
  | right
  | up
  | down
  | f1
  | enter
  | one
  | two
  | three
  | four
  | other
  deriving DecidableEq, Repr

/-- The three places where the program reads a key: the menu loop of
`printmenu`, the loop of `humanMove`, and the single `getch()` of `winOrDraw`. -/
inductive Prompt where
  | menu
  | move
  | anyKey
  deriving DecidableEq, Repr

/-- The outcome of running a function of the game loop on a list of keys. -/
inductive Run where
  | returned (s : State) (rest : List Key)
  | exited (s : State)
  | waiting (prompt : Prompt) (s : State)
  | undefinedAccess
  | outOfFuel

/-- Sequencing: when the call returned, go on with the rest of the function
body; otherwise the function body is never resumed. -/
def Run.andThen (r : Run) (k : State → List Key → Run) : Run :=
  match r with
  | Run.returned s rest => k s rest
  | other => other

/-- The outcome of the `while` loop of `humanMove`. -/
inductive Nav where
  | entered (s : State) (rest : List Key)
  | quit (s : State)
  | more (s : State)

/-- The `while ((ch = getch()) != 10)` loop of `humanMove`: the arrow keys move
the selection and wrap around, F1 exits, the Enter key leaves the loop. -/
def navigate : State → List Key → Nav
  | s, [] => Nav.more s
  | s, Key.enter :: rest => Nav.entered s rest
  | s, Key.left :: rest =>
    navigate { s with currGridX := if s.currGridX = 1 then 3 else s.currGridX - 1 } rest
  | s, Key.right :: rest =>
    navigate { s with currGridX := if s.currGridX = 3 then 1 else s.currGridX + 1 } rest
  | s, Key.up :: rest =>
    navigate { s with currGridY := if s.currGridY = 1 then 3 else s.currGridY - 1 } rest
  | s, Key.down :: rest =>
    navigate { s with currGridY := if s.currGridY = 3 then 1 else s.currGridY + 1 } rest
  | s, Key.f1 :: _ => Nav.quit s
  | s, _ :: rest => navigate s rest

/-- The outcome of the menu loop of `printmenu`. -/
inductive Menu where
  | chosen (s : State) (rest : List Key)
  | quit (s : State)
  | more (s : State)

/-- The function `printmenu()`: read keys until one of the four choices is
made, and set the players. -/
def printmenu : State → List Key → Menu
  | s, [] => Menu.more s
  | s, Key.one :: rest => Menu.chosen (setPlayer Player.Human Player.Computer s) rest
  | s, Key.two :: rest => Menu.chosen (setPlayer Player.Computer Player.Human s) rest
  | s, Key.three :: rest => Menu.chosen (setPlayer Player.Human Player.Human s) rest
  | s, Key.four :: rest => Menu.chosen (setPlayer Player.Computer Player.Computer s) rest
  | s, Key.f1 :: _ => Menu.quit s
  | s, _ :: rest => printmenu s rest

/-- The two statements `ttt_board[ind] = currPlayer; unoccupiedSq--;` of
`humanMove` and `computerMove`. -/
def markSquare (i : Fin 9) (s : State) : State :=
  { s with
    ttt_board := Function.update s.ttt_board i s.currPlayer
    unoccupiedSq := s.unoccupiedSq - 1 }

/-- The statement `currPlayer ^= 0x3`. -/
def switchPlayer (s : State) : State :=
  { s with currPlayer := Int.xor s.currPlayer 3 }

/-- The common tail of `humanMove` and `computerMove` from "Mark the board as
well" on: mark the square, call `winOrDraw` when `checkVictory` is not 0, switch
the player and call the move function of the next player.  The arguments
`human`, `computer` and `win` are the calls `humanMove()`, `computerMove()` and
`winOrDraw(vic)`. -/
def finishMove (human computer : State → List Key → Run)
    (win : Int → State → List Key → Run) (i : Fin 9) (s : State) (rest : List Key) : Run :=
  let s1 := markSquare i s
  (if checkVictory s1 ≠ 0 then win (checkVictory s1) s1 rest
    else Run.returned s1 rest).andThen fun s2 rest2 =>
    let s3 := switchPlayer s2
    if s3.currPlayer = 1 ∧ s3.player1 = Player.Computer then computer s3 rest2
    else if s3.currPlayer = 2 ∧ s3.player2 = Player.Computer then computer s3 rest2
    else human s3 rest2

/-- The fuel `computerMove` gives the search: the recursion of `applyNegamax`
is at most ten calls deep on a board of nine squares. -/
def searchDepth : Nat := 10

mutual

/-- The function `humanMove()`. -/
def humanMove : Nat → State → List Key → Run
  | 0, _, _ => Run.outOfFuel
  | fuel + 1, s, keys =>
    match navigate s keys with
    | Nav.more s1 => Run.waiting Prompt.move s1
    | Nav.quit s1 => Run.exited s1
    | Nav.entered s1 rest =>
      match index? 9 ((s1.currGridY - 1) * 3 + (s1.currGridX - 1)) with
      | none => Run.undefinedAccess
      | some i =>
        (if s1.ttt_board i ≠ -1 then humanMove fuel s1 rest
          else Run.returned s1 rest).andThen fun s2 rest2 =>
          finishMove (humanMove fuel) (computerMove fuel) (winOrDraw fuel) i s2 rest2

/-- The function `computerMove()`; the worker thread is joined at once, so
`runComputer` is an ordinary call. -/
def computerMove : Nat → State → List Key → Run
  | 0, _, _ => Run.outOfFuel
  | fuel + 1, s, keys =>
    match runComputer searchDepth { s with negamaxCurrPlayer := s.currPlayer } with
    | none => Run.undefinedAccess
    | some (compBestMove, s1) =>
      match index? 9 compBestMove with
      | none => Run.undefinedAccess
      | some i =>
        finishMove (humanMove fuel) (computerMove fuel) (winOrDraw fuel) i
          { s1 with
            currGridY := Int.tdiv compBestMove 3 + 1
            currGridX := Int.tmod compBestMove 3 + 1 } keys

/-- The function `winOrDraw(result)`: show the result, wait for a key, start a
new game. -/
def winOrDraw : Nat → Int → State → List Key → Run
  | 0, _, _, _ => Run.outOfFuel
  | fuel + 1, _, s, keys =>
    match keys with
    | [] => Run.waiting Prompt.anyKey s
    | _ :: rest => startGame fuel s rest

/-- The function `startGame()`. -/
def startGame : Nat → State → List Key → Run
  | 0, _, _ => Run.outOfFuel
  | fuel + 1, s, keys =>
    match printmenu s keys with
    | Menu.more s1 => Run.waiting Prompt.menu s1
    | Menu.quit s1 => Run.exited s1
    | Menu.chosen s1 rest =>
      if ({ drawboard s1 with currGridX := 2, currGridY := 2 } : State).player1 = Player.Human then
        humanMove fuel { drawboard s1 with currGridX := 2, currGridY := 2 } rest
      else computerMove fuel { drawboard s1 with currGridX := 2, currGridY := 2 } rest

end

/-- The run did not return to its caller. -/
def Run.NoReturn (r : Run) : Prop :=
  ∀ s rest, r ≠ Run.returned s rest

/-! ## Games -/

/-- The state in which `startGame` calls the first move function: the players
are set by `printmenu`, the board is reset by `drawboard` and the selection is
the middle square. -/
def newGame (one two : Player) (s : State) : State :=
  { drawboard (setPlayer one two s) with currGridX := 2, currGridY := 2 }

/-- The state after a move at square `i`, at the point where the program next
reads a key or starts a search: the square is marked, and the player is switched
unless `checkVictory` is not 0, in which case the game is over. -/
def afterMove (i : Fin 9) (s : State) : State :=
  if checkVictory (markSquare i s) ≠ 0 then markSquare i s
  else switchPlayer (markSquare i s)

/-- The states reachable by legal play: a new game starts with player 1, each
move marks an empty square for the current player, the players alternate, and
no move is made once `checkVictory` is not 0. -/
inductive LegalPlay : State → Prop where
  | start (s : State) (one two : Player) : LegalPlay (newGame one two s)
  | move (s : State) (i : Fin 9) : LegalPlay s → checkVictory s = 0 → s.ttt_board i = -1 →
      LegalPlay (afterMove i s)

/-- The three cells of a line all hold the mark `m`. -/
def LineOf (b : Board) (l : Fin 9 × Fin 9 × Fin 9) (m : Int) : Prop :=
  b l.1 = m ∧ b l.2.1 = m ∧ b l.2.2 = m

/-- All completed lines of the board carry the same mark. -/
def OneMark (b : Board) : Prop :=
  ∀ l1 ∈ scoring, ∀ l2 ∈ scoring, lineWon b l1 → lineWon b l2 → b l1.1 = b l2.1

/-- The states of a game in which side `e` always plays the square returned by
`runComputer`, called as `computerMove` calls it, and the other side plays any
empty square; play stops once `checkVictory` is not 0. -/
inductive EnginePlay (e : Int) (fuel : Nat) : State → Prop where
  | start (s : State) (one two : Player) : s.stackTop = 0 →
      EnginePlay e fuel (newGame one two s)
  | engine (s s1 : State) (m : Int) (i : Fin 9) : EnginePlay e fuel s → checkVictory s = 0 →
      s.currPlayer = e →
      runComputer fuel { s with negamaxCurrPlayer := s.currPlayer } = some (m, s1) →
      index? 9 m = some i → EnginePlay e fuel (afterMove i s1)
  | opponent (s : State) (i : Fin 9) : EnginePlay e fuel s → checkVictory s = 0 →
      s.currPlayer ≠ e → s.ttt_board i = -1 → EnginePlay e fuel (afterMove i s)

/-- The invariant of a game against the engine playing side `e`: the board is
valid, the counter exact, the stack empty, the opponent has not won, and while
the game is on the search value of the position is at least 0 for the engine
when it is to move and at most 0 for the opponent when the opponent is to
move. -/
def EngineSafe (e : Int) (fuel : Nat) (s : State) : Prop :=
  CellsValid s.ttt_board ∧ CountExact s ∧ s.stackTop = 0 ∧ SideValid s.currPlayer ∧
  checkVictory s ≠ Int.xor e 3 ∧
  (checkVictory s = 0 →
    (s.currPlayer = e → 0 ≤ negamaxValue fuel s.ttt_board s.unoccupiedSq e) ∧
    (s.currPlayer ≠ e → negamaxValue fuel s.ttt_board s.unoccupiedSq s.currPlayer ≤ 0))

/-- The selection `(currGridX, currGridY)` is on the grid. -/
def CursorOK (s : State) : Prop :=
  1 ≤ s.currGridX ∧ s.currGridX ≤ 3 ∧ 1 ≤ s.currGridY ∧ s.currGridY ≤ 3

/-- The state at the call of a move function: the counter is exact, the board
valid, the stack empty, the current player 1 or 2, the game on and the
selection on the grid. -/
def MoveReady (s : State) : Prop :=
  CountExact s ∧ CellsValid s.ttt_board ∧ s.stackTop = 0 ∧ SideValid s.currPlayer ∧
    checkVictory s = 0 ∧ CursorOK s

/-- The state `s1` is `s` with the selection moved to a square of the grid. -/
def SameButCursor (s s1 : State) : Prop :=
  ∃ x y : Int, s1 = { s with currGridX := x, currGridY := y } ∧
    1 ≤ x ∧ x ≤ 3 ∧ 1 ≤ y ∧ y ≤ 3

/-- The state in which the `while` loop of `humanMove` ended. -/
def Nav.state : Nav → State
  | Nav.entered s _ => s
  | Nav.quit s => s
  | Nav.more s => s

/-- The run made no out-of-bounds access, and the counter is exact in the
state in which it stopped. -/
def Run.Exact : Run → Prop
  | Run.returned s _ => CountExact s
  | Run.exited s => CountExact s
  | Run.waiting _ s => CountExact s
  | Run.undefinedAccess => False
  | Run.outOfFuel => True

/-- A game of two humans played to its end: player 1 marks squares 0, 1 and 2,
player 2 marks squares 3 and 4, and player 1 completes the top row. -/
def wonGame : State :=
  afterMove 2 (afterMove 4 (afterMove 1 (afterMove 3 (afterMove 0
    (newGame Player.Human Player.Human initialState)))))

/-- The state holds the board coded by `cs`, the counter `u` and the current
player `p`. -/
def Position (s : State) (cs : List Nat) (u p : Int) : Prop :=
  s.ttt_board = boardOf cs ∧ s.unoccupiedSq = u ∧ s.currPlayer = p

/-! ## Theorems -/



theorem lineOwner_of_won {b : Board} (hb : CellsValid b) (l : Fin 9 × Fin 9 × Fin 9)
    (h : lineWon b l) : ∃ sd, lineOwner b l = some sd ∧ sd.code = b l.1 := by
  obtain ⟨h1, h2, h3⟩ := h
  rcases hb l.1 with e | e | e
  · exact absurd e h1
  · refine ⟨Side.First, ?_, by simp [Side.code, e]⟩
    simp [lineOwner, cellSide, ← h3, ← h2, e]
  · refine ⟨Side.Second, ?_, by simp [Side.code, e]⟩
    simp [lineOwner, cellSide, ← h3, ← h2, e]

theorem lineOwner_of_not_won {b : Board} (hb : CellsValid b) (l : Fin 9 × Fin 9 × Fin 9)
    (h : ¬ lineWon b l) : lineOwner b l = none := by
  unfold lineWon at h
  rcases hb l.1 with e1 | e1 | e1 <;> rcases hb l.2.1 with e2 | e2 | e2 <;>
    rcases hb l.2.2 with e3 | e3 | e3 <;>
    simp [lineOwner, cellSide, e1, e2, e3] at h ⊢

theorem checkLines_eq_findSome {b : Board} (hb : CellsValid b)
    (t : List (Fin 9 × Fin 9 × Fin 9)) :
    checkLines b t = (t.findSome? (lineOwner b)).map Side.code := by
  induction t with
  | nil => rfl
  | cons l rest ih =>
    by_cases h : lineWon b l
    · obtain ⟨sd, hsd, hc⟩ := lineOwner_of_won hb l h
      simp [checkLines, h, List.findSome?, hsd, hc]
    · simp [checkLines, h, List.findSome?, lineOwner_of_not_won hb l h, ih]

theorem checkLines_first {b : Board} (pre post : List (Fin 9 × Fin 9 × Fin 9))
    (l : Fin 9 × Fin 9 × Fin 9) (hl : lineWon b l) (hpre : ∀ x ∈ pre, ¬ lineWon b x) :
    checkLines b (pre ++ l :: post) = some (b l.1) := by
  induction pre with
  | nil => simp [checkLines, hl]
  | cons x pre ih =>
    have hx : ¬ lineWon b x := hpre x (by simp)
    simp only [List.cons_append, checkLines, hx, if_false]
    exact ih (fun y hy => hpre y (by simp [hy]))

theorem checkLines_none {b : Board} (t : List (Fin 9 × Fin 9 × Fin 9))
    (h : ∀ x ∈ t, ¬ lineWon b x) : checkLines b t = none := by
  induction t with
  | nil => rfl
  | cons x t ih =>
    have hx : ¬ lineWon b x := h x (by simp)
    simp only [checkLines, hx, if_false]
    exact ih (fun y hy => h y (by simp [hy]))

/-! ### Arrays, counters and sides -/

theorem index?_natCast (n : Nat) (i : Fin n) : index? n ((i : Nat) : Int) = some i := by
  unfold index?
  have h : 0 ≤ ((i : Nat) : Int) ∧ ((i : Nat) : Int).toNat < n := ⟨by omega, by simp⟩
  rw [dif_pos h]
  simp

theorem index?_eq_some {n : Nat} {x : Int} (h0 : 0 ≤ x) (h1 : x < n) :
    ∃ k : Fin n, index? n x = some k ∧ ((k : Nat) : Int) = x := by
  have h : 0 ≤ x ∧ x.toNat < n := ⟨h0, by omega⟩
  refine ⟨⟨x.toNat, h.2⟩, ?_, ?_⟩
  · unfold index?; rw [dif_pos h]
  · simp [Int.toNat_of_nonneg h0]

theorem index?_some_iff {n : Nat} {x : Int} {k : Fin n} (h : index? n x = some k) :
    ((k : Nat) : Int) = x := by
  unfold index? at h
  split at h
  · rename_i hx
    simp only [Option.some.injEq] at h
    subst h
    simp [Int.toNat_of_nonneg hx.1]
  · simp at h

theorem xor_three_valid {p : Int} (hp : SideValid p) : SideValid (Int.xor p 3) := by
  rcases hp with rfl | rfl
  · right; decide
  · left; decide

theorem xor_three_xor_three {p : Int} (hp : SideValid p) : Int.xor (Int.xor p 3) 3 = p := by
  rcases hp with rfl | rfl <;> decide

theorem sideValid_ne_empty {p : Int} (hp : SideValid p) : p ≠ -1 := by
  rcases hp with rfl | rfl <;> decide

theorem emptyCount_update {b : Board} {i : Fin 9} {v : Int} (hi : b i = -1) (hv : v ≠ -1) :
    emptyCount (Function.update b i v) + 1 = emptyCount b := by
  unfold emptyCount
  have h : Finset.univ.filter (fun j => Function.update b i v j = -1)
      = (Finset.univ.filter (fun j => b j = -1)).erase i := by
    ext j
    by_cases hj : j = i
    · subst hj; simp [hv]
    · simp [Function.update_noteq hj, hj]
  rw [h, Finset.card_erase_of_mem (by simp [hi])]
  have : 0 < (Finset.univ.filter (fun j => b j = -1)).card :=
    Finset.card_pos.mpr ⟨i, by simp [hi]⟩
  omega

theorem emptyCount_pos {b : Board} {i : Fin 9} (hi : b i = -1) : 0 < emptyCount b :=
  Finset.card_pos.mpr ⟨i, by simp [hi]⟩

theorem emptyCount_le (b : Board) : emptyCount b ≤ 9 := by
  unfold emptyCount
  exact le_trans (Finset.card_le_univ _) (by simp)

theorem update_undo {b : Board} {i : Fin 9} (v : Int) (hi : b i = -1) :
    Function.update (Function.update b i v) i (-1) = b := by
  rw [Function.update_idem, ← hi, Function.update_eq_self]

/-! ### The search leaves the state as it found it -/

theorem makeMove_eq {s : State} {i : Fin 9} {k : Fin 100} (side : Int)
    (hk : index? 100 s.stackTop = some k) :
    negamaxMakeMove ((i : Nat) : Int) side s = some { s with
        ttt_board := Function.update s.ttt_board i side
        unoccupiedSq := s.unoccupiedSq - 1
        board_stack := Function.update s.board_stack k ((i : Nat) : Int)
        stackTop := s.stackTop + 1
        negamaxCurrPlayer := Int.xor s.negamaxCurrPlayer 3 } := by
  simp only [negamaxMakeMove, index?_natCast, hk]

theorem undoMove_eq {s : State} {i : Fin 9} {k : Fin 100}
    (hk : index? 100 (s.stackTop - 1) = some k) (hi : s.board_stack k = ((i : Nat) : Int)) :
    negamaxUndoMove s = some { s with
        stackTop := s.stackTop - 1
        ttt_board := Function.update s.ttt_board i (-1)
        unoccupiedSq := s.unoccupiedSq + 1
        negamaxCurrPlayer := Int.xor s.negamaxCurrPlayer 3 } := by
  simp only [negamaxUndoMove, hk, hi, index?_natCast]

theorem scoreLoop_ok {search : State → Option (Int × State)}
    {val : Board → Int → Int → Int} {n : Nat} (hs : SearchOK search val n) :
    ∀ (idxs : List (Fin 9)) (s : State), SearchReady s → emptyCount s.ttt_board < n + 1 →
      ∃ bs, scoreLoop search idxs s
          = some (idxs.map (scoreOf val s.ttt_board s.unoccupiedSq s.negamaxCurrPlayer),
              { s with board_stack := bs }) ∧ StackKept s bs := by
  intro idxs
  induction idxs with
  | nil =>
    intro s _ _
    exact ⟨s.board_stack, rfl, fun _ _ => rfl⟩
  | cons i rest ih =>
    intro s hr hn
    obtain ⟨h0, hroom, hp⟩ := hr
    by_cases hi : s.ttt_board i = -1
    · have hpos := emptyCount_pos hi
      have hcnt := emptyCount_update (v := s.negamaxCurrPlayer) hi (sideValid_ne_empty hp)
      obtain ⟨k, hk, hkv⟩ := index?_eq_some (n := 100) h0 (by omega)
      have hmk := makeMove_eq (i := i) s.negamaxCurrPlayer hk
      obtain ⟨bs1, hsearch, hkept1⟩ := hs _
        (show SearchReady { s with
            ttt_board := Function.update s.ttt_board i s.negamaxCurrPlayer
            unoccupiedSq := s.unoccupiedSq - 1
            board_stack := Function.update s.board_stack k ((i : Nat) : Int)
            stackTop := s.stackTop + 1
            negamaxCurrPlayer := Int.xor s.negamaxCurrPlayer 3 } from
          ⟨by show 0 ≤ s.stackTop + 1; omega,
           by show s.stackTop + 1 +
              (emptyCount (Function.update s.ttt_board i s.negamaxCurrPlayer) : Int) ≤ 100
              omega, xor_three_valid hp⟩)
        (by show emptyCount (Function.update s.ttt_board i s.negamaxCurrPlayer) < n; omega)
      have hbk : bs1 k = ((i : Nat) : Int) := by
        rw [hkept1 k (by show ((k : Nat) : Int) < s.stackTop + 1; omega)]
        exact Function.update_same _ _ _
      have hundo := undoMove_eq (s := { s with
            ttt_board := Function.update s.ttt_board i s.negamaxCurrPlayer
            unoccupiedSq := s.unoccupiedSq - 1
            board_stack := bs1
            stackTop := s.stackTop + 1
            negamaxCurrPlayer := Int.xor s.negamaxCurrPlayer 3 }) (i := i) (k := k)
        (by show index? 100 (s.stackTop + 1 - 1) = some k; rw [add_sub_cancel_right]; exact hk)
        hbk
      simp only [update_undo _ hi, add_sub_cancel_right, sub_add_cancel,
        xor_three_xor_three hp] at hundo
      obtain ⟨bs2, hrest, hkept2⟩ := ih { s with board_stack := bs1 } ⟨h0, hroom, hp⟩ hn
      refine ⟨bs2, ?_, ?_⟩
      · simp only [scoreLoop, hi, if_true, hmk, hsearch, hundo, hrest, List.map_cons, scoreOf]
      · intro j hj
        rw [hkept2 j hj]
        show bs1 j = s.board_stack j
        rw [hkept1 j (by show ((j : Nat) : Int) < s.stackTop + 1; omega)]
        show Function.update s.board_stack k ((i : Nat) : Int) j = s.board_stack j
        apply Function.update_noteq
        intro hjk
        rw [hjk] at hj
        omega
    · obtain ⟨bs2, hrest, hkept2⟩ := ih s ⟨h0, hroom, hp⟩ hn
      exact ⟨bs2, by simp only [scoreLoop, hi, if_false, hrest, List.map_cons, scoreOf], hkept2⟩

theorem applyNegamax_ok (fuel : Nat) :
    SearchOK (applyNegamax fuel) (negamaxValue fuel) fuel := by
  induction fuel with
  | zero => intro s _ h; omega
  | succ fuel ih =>
    intro s hr hn
    simp only [applyNegamax, negamaxValue, checkVictory]
    split_ifs with h12 hp h3
    · exact ⟨s.board_stack, rfl, fun _ _ => rfl⟩
    · exact ⟨s.board_stack, rfl, fun _ _ => rfl⟩
    · exact ⟨s.board_stack, rfl, fun _ _ => rfl⟩
    · obtain ⟨bs, hloop, hkept⟩ := scoreLoop_ok ih (List.finRange 9) s hr hn
      exact ⟨bs, by rw [hloop], hkept⟩

/-! ### The outcome test on valid boards -/

theorem checkLines_some {b : Board} {t : List (Fin 9 × Fin 9 × Fin 9)} {w : Int}
    (h : checkLines b t = some w) : ∃ l ∈ t, lineWon b l ∧ w = b l.1 := by
  induction t with
  | nil => simp [checkLines] at h
  | cons x t ih =>
    by_cases hx : lineWon b x
    · simp only [checkLines, hx, if_true, Option.some.injEq] at h
      exact ⟨x, by simp, hx, h.symm⟩
    · simp only [checkLines, hx, if_false] at h
      obtain ⟨l, hl, hw⟩ := ih h
      exact ⟨l, by simp [hl], hw⟩

theorem checkLines_eq_none {b : Board} {t : List (Fin 9 × Fin 9 × Fin 9)}
    (h : checkLines b t = none) : ∀ l ∈ t, ¬ lineWon b l := by
  induction t with
  | nil => simp
  | cons x t ih =>
    by_cases hx : lineWon b x
    · simp [checkLines, hx] at h
    · simp only [checkLines, hx, if_false] at h
      intro l hl
      rcases List.mem_cons.mp hl with rfl | hl
      · exact hx
      · exact ih h l hl

theorem lineWon_mark {b : Board} (hb : CellsValid b) {l : Fin 9 × Fin 9 × Fin 9}
    (h : lineWon b l) : b l.1 = 1 ∨ b l.1 = 2 := by
  rcases hb l.1 with e | e | e
  · exact absurd e h.1
  · exact Or.inl e
  · exact Or.inr e

/-- On a valid board the outcome is a win of the mark on a completed line, or
there is no completed line and the outcome is 3 or 0 by the counter. -/
theorem checkVictoryOn_cases {b : Board} (hb : CellsValid b) (u : Int) :
    (∃ l ∈ scoring, lineWon b l ∧ checkVictoryOn b u = b l.1 ∧ (b l.1 = 1 ∨ b l.1 = 2)) ∨
    ((∀ l ∈ scoring, ¬ lineWon b l) ∧ u = 0 ∧ checkVictoryOn b u = 3) ∨
    ((∀ l ∈ scoring, ¬ lineWon b l) ∧ u ≠ 0 ∧ checkVictoryOn b u = 0) := by
  unfold checkVictoryOn checkVictoryWith
  cases h : checkLines b scoring with
  | some w =>
    left
    obtain ⟨l, hl, hw, rfl⟩ := checkLines_some h
    exact ⟨l, hl, hw, rfl, lineWon_mark hb hw⟩
  | none =>
    right
    have hn := checkLines_eq_none h
    by_cases hu : u = 0
    · left; exact ⟨hn, hu, by simp [hu]⟩
    · right; exact ⟨hn, hu, by simp [hu]⟩

theorem exists_empty_of_pos {b : Board} (h : 0 < emptyCount b) : ∃ i, b i = -1 := by
  obtain ⟨i, hi⟩ := Finset.card_pos.mp h
  exact ⟨i, by simpa using hi⟩

theorem cellsValid_update {b : Board} (hb : CellsValid b) (i : Fin 9) {p : Int}
    (hp : SideValid p) : CellsValid (Function.update b i p) := by
  intro j
  by_cases hj : j = i
  · subst hj
    rw [Function.update_same]
    exact Or.inr hp
  · rw [Function.update_noteq hj]
    exact hb j

/-! ### The two selection loops -/

theorem maxScoreLoop_ge_init (l : List Int) (m : Int) : m ≤ maxScoreLoop l m := by
  induction l generalizing m with
  | nil => exact le_refl m
  | cons x l ih =>
    simp only [maxScoreLoop]
    split_ifs with h
    · exact le_trans (le_of_lt h) (ih x)
    · exact ih m

theorem maxScoreLoop_ge_mem (l : List Int) (m x : Int) (hx : x ∈ l) :
    x ≤ maxScoreLoop l m := by
  induction l generalizing m with
  | nil => simp at hx
  | cons y l ih =>
    simp only [maxScoreLoop]
    rcases List.mem_cons.mp hx with rfl | hx
    · split_ifs with h
      · exact maxScoreLoop_ge_init l x
      · exact le_trans (not_lt.mp h) (maxScoreLoop_ge_init l m)
    · exact ih _ hx

theorem maxScoreLoop_le (l : List Int) (m c : Int) (hm : m ≤ c) (hl : ∀ x ∈ l, x ≤ c) :
    maxScoreLoop l m ≤ c := by
  induction l generalizing m with
  | nil => exact hm
  | cons y l ih =>
    simp only [maxScoreLoop]
    have hy : y ≤ c := hl y (by simp)
    have hl2 : ∀ x ∈ l, x ≤ c := fun x hx => hl x (by simp [hx])
    split_ifs with h
    · exact ih y hy hl2
    · exact ih m hm hl2

theorem maxScoreLoop_mem (l : List Int) (m : Int) :
    maxScoreLoop l m = m ∨ maxScoreLoop l m ∈ l := by
  induction l generalizing m with
  | nil => exact Or.inl rfl
  | cons y l ih =>
    simp only [maxScoreLoop]
    split_ifs with h
    · rcases ih y with e | e
      · right; rw [e]; simp
      · right; simp [e]
    · rcases ih m with e | e
      · left; exact e
      · right; simp [e]

theorem bestMoveLoop_fst (l : List Int) (i m bm : Int) :
    (bestMoveLoop l i m bm).1 = maxScoreLoop l m := by
  induction l generalizing i m bm with
  | nil => rfl
  | cons y l ih =>
    simp only [bestMoveLoop, maxScoreLoop]
    split_ifs with h
    · exact ih _ _ _
    · exact ih _ _ _

/-- The index kept by the second loop of `runComputer`: when some score exceeds
the initial maximum, it is the first position holding the final maximum. -/
theorem bestMoveLoop_snd (l : List Int) (i m bm : Int) (h : m < maxScoreLoop l m) :
    ∃ j : Nat, ∃ hj : j < l.length, (bestMoveLoop l i m bm).2 = i + j ∧
      l.get ⟨j, hj⟩ = maxScoreLoop l m ∧
      ∀ k : Nat, ∀ hk : k < l.length, k < j → l.get ⟨k, hk⟩ < maxScoreLoop l m := by
  induction l generalizing i m bm with
  | nil => simp [maxScoreLoop] at h
  | cons y l ih =>
    simp only [bestMoveLoop, maxScoreLoop] at h ⊢
    by_cases hy : y > m
    · simp only [hy, if_true] at h ⊢
      by_cases hlt : y < maxScoreLoop l y
      · obtain ⟨j, hj, e1, e2, e3⟩ := ih (i + 1) y i hlt
        refine ⟨j + 1, by simp; omega, by rw [e1]; push_cast; ring, by simpa using e2, ?_⟩
        intro k hk hkj
        cases k with
        | zero => simpa using hlt
        | succ k =>
          have := e3 k (by simpa using hk) (by omega)
          simpa using this
      · have heq : maxScoreLoop l y = y :=
          le_antisymm (not_lt.mp hlt) (maxScoreLoop_ge_init l y)
        refine ⟨0, by simp, ?_, by simp [heq], fun k _ hk => absurd hk (by omega)⟩
        have hfix : ∀ (l : List Int) (i bm : Int), maxScoreLoop l y = y →
            (bestMoveLoop l i y bm).2 = bm := by
          intro l
          induction l with
          | nil => intro _ _ _; rfl
          | cons z l ihl =>
            intro i bm hz
            simp only [bestMoveLoop, maxScoreLoop] at hz ⊢
            by_cases hzy : z > y
            · simp only [hzy, if_true] at hz
              have := maxScoreLoop_ge_init l z
              omega
            · simp only [hzy, if_false] at hz ⊢
              exact ihl _ _ hz
        simpa using hfix l (i + 1) i heq
    · simp only [hy, if_false] at h ⊢
      obtain ⟨j, hj, e1, e2, e3⟩ := ih (i + 1) m bm h
      refine ⟨j + 1, by simp; omega, by rw [e1]; push_cast; ring, by simpa using e2, ?_⟩
      intro k hk hkj
      cases k with
      | zero =>
        simp only [List.get_eq_getElem, List.getElem_cons_zero]
        omega
      | succ k =>
        have := e3 k (by simpa using hk) (by omega)
        simpa using this

/-! ### Range of the search value -/

theorem negamaxValue_range (fuel : Nat) :
    ∀ (b : Board) (u p : Int), CellsValid b → SideValid p → u = (emptyCount b : Int) →
      emptyCount b < fuel → -1 ≤ negamaxValue fuel b u p ∧ negamaxValue fuel b u p ≤ 1 := by
  induction fuel with
  | zero => intro b u p _ _ _ h; omega
  | succ fuel ih =>
    intro b u p hb hp hu hn
    simp only [negamaxValue]
    split_ifs with h12 hps h3
    · constructor <;> norm_num
    · constructor <;> norm_num
    · constructor <;> norm_num
    · have hsc : ∀ j : Fin 9, b j = -1 →
          -1 ≤ scoreOf (negamaxValue fuel) b u p j ∧ scoreOf (negamaxValue fuel) b u p j ≤ 1 := by
        intro j hj
        have hc := emptyCount_update (v := p) hj (sideValid_ne_empty hp)
        have := ih (Function.update b j p) (u - 1) (Int.xor p 3) (cellsValid_update hb j hp)
          (xor_three_valid hp) (by omega) (by omega)
        simp only [scoreOf, hj, if_true]
        omega
      rcases checkVictoryOn_cases hb u with ⟨l, _, _, e, hm⟩ | ⟨_, _, e⟩ | ⟨_, hu0, _⟩
      · rw [e] at h12; exact absurd hm h12
      · exact absurd e h3
      · obtain ⟨i, hi⟩ := exists_empty_of_pos (b := b) (by omega)
        constructor
        · refine le_trans (hsc i hi).1 (maxScoreLoop_ge_mem _ _ _ ?_)
          exact List.mem_map.mpr ⟨i, List.mem_finRange i, rfl⟩
        · apply maxScoreLoop_le _ _ _ (by norm_num)
          intro x hx
          obtain ⟨j, _, rfl⟩ := List.mem_map.mp hx
          by_cases hj : b j = -1
          · exact (hsc j hj).2
          · simp [scoreOf, hj]

theorem scoreOf_range (fuel : Nat) {b : Board} {u p : Int} (hb : CellsValid b)
    (hp : SideValid p) (hu : u = (emptyCount b : Int)) (hn : emptyCount b ≤ fuel)
    {j : Fin 9} (hj : b j = -1) :
    -1 ≤ scoreOf (negamaxValue fuel) b u p j ∧ scoreOf (negamaxValue fuel) b u p j ≤ 1 := by
  have hc := emptyCount_update (v := p) hj (sideValid_ne_empty hp)
  have := negamaxValue_range fuel (Function.update b j p) (u - 1) (Int.xor p 3)
    (cellsValid_update hb j hp) (xor_three_valid hp) (by omega) (by omega)
  simp only [scoreOf, hj, if_true]
  omega

theorem scoreOf_occupied (val : Board → Int → Int → Int) {b : Board} (u p : Int) {j : Fin 9}
    (hj : b j ≠ -1) : scoreOf val b u p j = -2 := by
  simp [scoreOf, hj]

/-! ### What `runComputer` computes -/

theorem runComputerScores_ok {fuel : Nat} {s : State} (hr : SearchReady s)
    (hn : emptyCount s.ttt_board ≤ fuel) :
    ∃ bs, runComputerScores fuel s
        = some ((List.finRange 9).map
            (scoreOf (negamaxValue fuel) s.ttt_board s.unoccupiedSq s.negamaxCurrPlayer),
          { s with board_stack := bs }) ∧ StackKept s bs :=
  scoreLoop_ok (applyNegamax_ok fuel) (List.finRange 9) s hr (by omega)

theorem moveScore_eq {fuel : Nat} {s : State} (hr : SearchReady s)
    (hn : emptyCount s.ttt_board ≤ fuel) {j : Fin 9} (hj : s.ttt_board j = -1) :
    moveScore fuel s ((j : Nat) : Int)
      = some (scoreOf (negamaxValue fuel) s.ttt_board s.unoccupiedSq s.negamaxCurrPlayer j) := by
  obtain ⟨h0, hroom, hp⟩ := hr
  have hpos := emptyCount_pos hj
  have hcnt := emptyCount_update (v := s.negamaxCurrPlayer) hj (sideValid_ne_empty hp)
  obtain ⟨k, hk, hkv⟩ := index?_eq_some (n := 100) h0 (by omega)
  obtain ⟨bs1, hsearch, _⟩ := applyNegamax_ok fuel { s with
        ttt_board := Function.update s.ttt_board j s.negamaxCurrPlayer
        unoccupiedSq := s.unoccupiedSq - 1
        board_stack := Function.update s.board_stack k ((j : Nat) : Int)
        stackTop := s.stackTop + 1
        negamaxCurrPlayer := Int.xor s.negamaxCurrPlayer 3 }
    ⟨by show 0 ≤ s.stackTop + 1; omega,
     by show s.stackTop + 1 +
          (emptyCount (Function.update s.ttt_board j s.negamaxCurrPlayer) : Int) ≤ 100
        omega, xor_three_valid hp⟩
    (by show emptyCount (Function.update s.ttt_board j s.negamaxCurrPlayer) < fuel; omega)
  simp only [moveScore, makeMove_eq (i := j) s.negamaxCurrPlayer hk, hsearch, scoreOf, hj, if_true]

theorem scores_get {val : Board → Int → Int → Int} {b : Board} {u p : Int} (j : Nat)
    (hj : j < ((List.finRange 9).map (scoreOf val b u p)).length) :
    ((List.finRange 9).map (scoreOf val b u p)).get ⟨j, hj⟩
      = scoreOf val b u p ⟨j, by simpa using hj⟩ := by
  simp [List.getElem_finRange]

theorem runComputer_frame {fuel : Nat} {s : State} (hr : SearchReady s)
    (hn : emptyCount s.ttt_board ≤ fuel) :
    ∃ m bs, runComputer fuel s = some (m, { s with board_stack := bs, bestMove := m }) ∧
      StackKept s bs := by
  obtain ⟨bs, hsc, hk⟩ := runComputerScores_ok hr hn
  refine ⟨(bestMoveLoop ((List.finRange 9).map
    (scoreOf (negamaxValue fuel) s.ttt_board s.unoccupiedSq s.negamaxCurrPlayer))
    0 (-3) s.bestMove).2, bs, ?_, hk⟩
  simp only [runComputer, hsc]

/-- The choice of `runComputer` on a valid board with an exact counter and an
empty square: the first square holding the maximal score, which is empty. -/
theorem runComputer_choice {fuel : Nat} {s : State} (hr : SearchReady s)
    (hb : CellsValid s.ttt_board) (hc : CountExact s) (hn : emptyCount s.ttt_board ≤ fuel)
    (hpos : ∃ i, s.ttt_board i = -1) :
    ∃ (i : Fin 9) (bs : Stack),
      runComputer fuel s
        = some (((i : Nat) : Int), { s with board_stack := bs, bestMove := ((i : Nat) : Int) }) ∧
      runComputerValue fuel s
        = some (scoreOf (negamaxValue fuel) s.ttt_board s.unoccupiedSq s.negamaxCurrPlayer i) ∧
      s.ttt_board i = -1 ∧
      (∀ j, scoreOf (negamaxValue fuel) s.ttt_board s.unoccupiedSq s.negamaxCurrPlayer j
          ≤ scoreOf (negamaxValue fuel) s.ttt_board s.unoccupiedSq s.negamaxCurrPlayer i) ∧
      (∀ j, j < i →
        scoreOf (negamaxValue fuel) s.ttt_board s.unoccupiedSq s.negamaxCurrPlayer j
          < scoreOf (negamaxValue fuel) s.ttt_board s.unoccupiedSq s.negamaxCurrPlayer i) ∧
      StackKept s bs := by
  obtain ⟨bs, hsc, hk⟩ := runComputerScores_ok hr hn
  obtain ⟨i0, hi0⟩ := hpos
  have hi0r := scoreOf_range fuel hb hr.2.2 hc hn hi0
  have hmem : ∀ j : Fin 9,
      scoreOf (negamaxValue fuel) s.ttt_board s.unoccupiedSq s.negamaxCurrPlayer j
        ≤ maxScoreLoop ((List.finRange 9).map
          (scoreOf (negamaxValue fuel) s.ttt_board s.unoccupiedSq s.negamaxCurrPlayer)) (-3) :=
    fun j => maxScoreLoop_ge_mem _ _ _ (List.mem_map.mpr ⟨j, List.mem_finRange j, rfl⟩)
  have hgt : (-3 : Int) < maxScoreLoop ((List.finRange 9).map
      (scoreOf (negamaxValue fuel) s.ttt_board s.unoccupiedSq s.negamaxCurrPlayer)) (-3) := by
    have := hmem i0
    omega
  obtain ⟨j, hj, e1, e2, e3⟩ := bestMoveLoop_snd _ 0 (-3) s.bestMove hgt
  have hj9 : j < 9 := by simpa using hj
  rw [scores_get] at e2
  have hempty : s.ttt_board ⟨j, hj9⟩ = -1 := by
    by_contra hne
    rw [scoreOf_occupied _ _ _ hne] at e2
    have := hmem i0
    omega
  refine ⟨⟨j, hj9⟩, bs, ?_, ?_, hempty, ?_, ?_, hk⟩
  · simp only [runComputer, hsc, e1, zero_add]
  · simp only [runComputerValue, hsc, bestMoveLoop_fst, e2]
  · intro k
    rw [e2]
    exact hmem k
  · intro k hkj
    have := e3 k (by simp) (by simpa using hkj)
    rw [scores_get] at this
    rw [e2]
    exact this

/-- On a board without an empty square `runComputer` calls no search, scores
every square `-2` and returns square 0. -/
theorem runComputer_full (fuel : Nat) (s : State) (hfull : ∀ i, s.ttt_board i ≠ -1) :
    runComputer fuel s = some (0, { s with bestMove := 0 }) := by
  have hloop : ∀ (idxs : List (Fin 9)),
      scoreLoop (applyNegamax fuel) idxs s = some (idxs.map (fun _ => (-2 : Int)), s) := by
    intro idxs
    induction idxs with
    | nil => rfl
    | cons i rest ih => simp only [scoreLoop, hfull i, if_false, ih, List.map_cons]
  simp only [runComputer, runComputerScores, hloop]
  rfl

theorem searchReady_of_stackTop {s : State} (h0 : 0 ≤ s.stackTop) (h91 : s.stackTop ≤ 91)
    (hside : SideValid s.negamaxCurrPlayer) : SearchReady s := by
  have := emptyCount_le s.ttt_board
  exact ⟨h0, by omega, hside⟩

theorem scenario_score_two : moveScore 10 (stateOf scenarioBoard 1) 2 = some 1 := by
  decide

/-! ### Unfolding the search value -/

theorem negamaxValue_ongoing {f : Nat} {b : Board} {u p : Int} (h0 : checkVictoryOn b u = 0) :
    negamaxValue (f + 1) b u p
      = maxScoreLoop ((List.finRange 9).map (scoreOf (negamaxValue f) b u p)) (-3) := by
  simp [negamaxValue, h0]

theorem negamaxValue_won {f : Nat} {b : Board} {u p : Int}
    (h : checkVictoryOn b u = 1 ∨ checkVictoryOn b u = 2) :
    negamaxValue (f + 1) b u p = if p = checkVictoryOn b u then 1 else -1 := by
  simp [negamaxValue, h]

theorem negamaxValue_drawn {f : Nat} {b : Board} {u p : Int} (h : checkVictoryOn b u = 3) :
    negamaxValue (f + 1) b u p = 0 := by
  simp [negamaxValue, h]

theorem value_ge_of_move {f : Nat} {b : Board} {u p : Int} (h0 : checkVictoryOn b u = 0)
    (i : Fin 9) (hi : b i = -1)
    (hv : negamaxValue f (Function.update b i p) (u - 1) (Int.xor p 3) ≤ 0) :
    0 ≤ negamaxValue (f + 1) b u p := by
  rw [negamaxValue_ongoing h0]
  have hs : 0 ≤ scoreOf (negamaxValue f) b u p i := by
    simp only [scoreOf, hi, if_true]
    omega
  exact le_trans hs (maxScoreLoop_ge_mem _ _ _ (List.mem_map.mpr ⟨i, List.mem_finRange i, rfl⟩))

theorem value_le_of_moves {f : Nat} {b : Board} {u p : Int} (h0 : checkVictoryOn b u = 0)
    (hall : ∀ i : Fin 9, b i = -1 →
      0 ≤ negamaxValue f (Function.update b i p) (u - 1) (Int.xor p 3)) :
    negamaxValue (f + 1) b u p ≤ 0 := by
  rw [negamaxValue_ongoing h0]
  apply maxScoreLoop_le _ _ _ (by norm_num)
  intro x hx
  obtain ⟨j, _, rfl⟩ := List.mem_map.mp hx
  by_cases hj : b j = -1
  · have := hall j hj
    simp only [scoreOf, hj, if_true]
    omega
  · simp [scoreOf, hj]

/-! ### Boards coded by lists of natural numbers -/

theorem cellOf_eq_empty {c : Nat} : cellOf c = -1 ↔ c = 0 := by
  unfold cellOf
  by_cases h : c = 0
  · simp [h]
  · simp only [h, if_false, iff_false]
    intro e
    have := Int.natCast_nonneg c
    omega

theorem cellOf_inj {a b : Nat} : cellOf a = cellOf b ↔ a = b := by
  constructor
  · intro e
    have ha0 := Int.natCast_nonneg a
    have hb0 := Int.natCast_nonneg b
    unfold cellOf at e
    by_cases ha : a = 0
    · by_cases hb : b = 0
      · rw [ha, hb]
      · rw [if_pos ha, if_neg hb] at e
        omega
    · by_cases hb : b = 0
      · rw [if_neg ha, if_pos hb] at e
        omega
      · rw [if_neg ha, if_neg hb] at e
        exact Nat.cast_inj.mp e
  · intro e
    rw [e]

theorem cellOf_pos {c : Nat} (h : c ≠ 0) : cellOf c = (c : Int) := by
  simp [cellOf, h]

theorem lineWon_boardOf (cs : List Nat) (i j k : Fin 9) :
    lineWon (boardOf cs) (i, j, k)
      ↔ lineN (cs.getD i 0) (cs.getD j 0) (cs.getD k 0) = true := by
  simp only [lineWon, boardOf, lineN, Bool.and_eq_true, bne_iff_ne, beq_iff_eq, ne_eq,
    cellOf_eq_empty, cellOf_inj]
  tauto

theorem boardOf_set (cs : List Nat) (k : Fin 9) (c : Nat) (hlen : cs.length = 9) :
    boardOf (cs.set k c) = Function.update (boardOf cs) k (cellOf c) := by
  funext i
  by_cases hik : i = k
  · subst hik
    rw [Function.update_same]
    simp [boardOf, List.getD_eq_getElem?_getD, hlen]
  · rw [Function.update_noteq hik]
    have hne : (k : Nat) ≠ (i : Nat) := fun e => hik (Fin.ext e.symm)
    simp [boardOf, List.getD_eq_getElem?_getD, List.getElem?_set_ne hne]

theorem boardOf_get (cs : List Nat) (i : Fin 9) : boardOf cs i = cellOf (cs.getD i 0) := rfl

theorem lineN_ne_zero {a b c : Nat} (h : lineN a b c = true) : a ≠ 0 := by
  simp only [lineN, Bool.and_eq_true, bne_iff_ne, beq_iff_eq, ne_eq] at h
  exact h.1.1

theorem checkVictoryOn_boardOf (c0 c1 c2 c3 c4 c5 c6 c7 c8 : Nat) (u : Int) :
    checkVictoryOn (boardOf [c0, c1, c2, c3, c4, c5, c6, c7, c8]) u
      = if firstLineN c0 c1 c2 c3 c4 c5 c6 c7 c8 = 0 then (if u = 0 then 3 else 0)
        else ((firstLineN c0 c1 c2 c3 c4 c5 c6 c7 c8 : Nat) : Int) := by
  unfold checkVictoryOn checkVictoryWith scoring firstLineN
  simp only [checkLines, lineWon_boardOf, boardOf_get]
  have e0 : List.getD [c0, c1, c2, c3, c4, c5, c6, c7, c8] ((0 : Fin 9) : Nat) 0 = c0 := rfl
  have e1 : List.getD [c0, c1, c2, c3, c4, c5, c6, c7, c8] ((1 : Fin 9) : Nat) 0 = c1 := rfl
  have e2 : List.getD [c0, c1, c2, c3, c4, c5, c6, c7, c8] ((2 : Fin 9) : Nat) 0 = c2 := rfl
  have e3 : List.getD [c0, c1, c2, c3, c4, c5, c6, c7, c8] ((3 : Fin 9) : Nat) 0 = c3 := rfl
  have e4 : List.getD [c0, c1, c2, c3, c4, c5, c6, c7, c8] ((4 : Fin 9) : Nat) 0 = c4 := rfl
  have e5 : List.getD [c0, c1, c2, c3, c4, c5, c6, c7, c8] ((5 : Fin 9) : Nat) 0 = c5 := rfl
  have e6 : List.getD [c0, c1, c2, c3, c4, c5, c6, c7, c8] ((6 : Fin 9) : Nat) 0 = c6 := rfl
  have e7 : List.getD [c0, c1, c2, c3, c4, c5, c6, c7, c8] ((7 : Fin 9) : Nat) 0 = c7 := rfl
  have e8 : List.getD [c0, c1, c2, c3, c4, c5, c6, c7, c8] ((8 : Fin 9) : Nat) 0 = c8 := rfl
  rw [e0, e1, e2, e3, e4, e5, e6, e7, e8]
  by_cases h0 : lineN c0 c1 c2 = true
  · simp only [h0, if_true, cellOf_pos (lineN_ne_zero h0), if_neg (lineN_ne_zero h0),
      Bool.false_eq_true, if_false]
  simp only [h0, Bool.false_eq_true, if_false]
  by_cases h1 : lineN c3 c4 c5 = true
  · simp only [h1, if_true, cellOf_pos (lineN_ne_zero h1), if_neg (lineN_ne_zero h1),
      Bool.false_eq_true, if_false]
  simp only [h1, Bool.false_eq_true, if_false]
  by_cases h2 : lineN c6 c7 c8 = true
  · simp only [h2, if_true, cellOf_pos (lineN_ne_zero h2), if_neg (lineN_ne_zero h2),
      Bool.false_eq_true, if_false]
  simp only [h2, Bool.false_eq_true, if_false]
  by_cases h3 : lineN c0 c3 c6 = true
  · simp only [h3, if_true, cellOf_pos (lineN_ne_zero h3), if_neg (lineN_ne_zero h3),
      Bool.false_eq_true, if_false]
  simp only [h3, Bool.false_eq_true, if_false]
  by_cases h4 : lineN c1 c4 c7 = true
  · simp only [h4, if_true, cellOf_pos (lineN_ne_zero h4), if_neg (lineN_ne_zero h4),
      Bool.false_eq_true, if_false]
  simp only [h4, Bool.false_eq_true, if_false]
  by_cases h5 : lineN c2 c5 c8 = true
  · simp only [h5, if_true, cellOf_pos (lineN_ne_zero h5), if_neg (lineN_ne_zero h5),
      Bool.false_eq_true, if_false]
  simp only [h5, Bool.false_eq_true, if_false]
  by_cases h6 : lineN c0 c4 c8 = true
  · simp only [h6, if_true, cellOf_pos (lineN_ne_zero h6), if_neg (lineN_ne_zero h6),
      Bool.false_eq_true, if_false]
  simp only [h6, Bool.false_eq_true, if_false]
  by_cases h7 : lineN c2 c4 c6 = true
  · simp only [h7, if_true, cellOf_pos (lineN_ne_zero h7), if_neg (lineN_ne_zero h7),
      Bool.false_eq_true, if_false]
  simp only [h7, Bool.false_eq_true, if_false]
  simp

theorem firstLineN_le {c0 c1 c2 c3 c4 c5 c6 c7 c8 : Nat}
    (hval : ∀ c ∈ [c0, c1, c2, c3, c4, c5, c6, c7, c8], c ≤ 2) : firstLineN c0 c1 c2 c3 c4 c5 c6 c7 c8 ≤ 2 := by
  unfold firstLineN
  split_ifs <;> first | exact Nat.zero_le 2 | exact hval _ (by simp)

/-- The bound a checked child position gives for the position after the move
at square `k`. -/
theorem child_bound {f : Nat} {ge : Bool} {p q : Nat} {cs : List Nat} {u : Nat}
    (ih : ∀ (ge : Bool) (p q : Nat) (cs : List Nat) (u : Nat),
      ((p = 1 ∧ q = 2) ∨ (p = 2 ∧ q = 1)) → (∀ c ∈ cs, c ≤ 2) →
      boundCheck f ge p q cs u = true →
      (ge = true → 0 ≤ negamaxValue f (boardOf cs) (u : Int) (p : Int)) ∧
      (ge = false → negamaxValue f (boardOf cs) (u : Int) (p : Int) ≤ 0))
    (hpq : (p = 1 ∧ q = 2) ∨ (p = 2 ∧ q = 1)) (hval : ∀ c ∈ cs, c ≤ 2)
    (hlen : cs.length = 9) (hu : u ≠ 0) (k : Fin 9)
    (hrec : boundCheck f ge q p (cs.set k p) (u - 1) = true) :
    (ge = true → 0 ≤ negamaxValue f (Function.update (boardOf cs) k (p : Int))
        ((u : Int) - 1) (Int.xor (p : Int) 3)) ∧
    (ge = false → negamaxValue f (Function.update (boardOf cs) k (p : Int))
        ((u : Int) - 1) (Int.xor (p : Int) 3) ≤ 0) := by
  have hp0 : p ≠ 0 := by rcases hpq with ⟨h, _⟩ | ⟨h, _⟩ <;> omega
  have hp2 : p ≤ 2 := by rcases hpq with ⟨h, _⟩ | ⟨h, _⟩ <;> omega
  have hq : (q : Int) = Int.xor (p : Int) 3 := by
    rcases hpq with ⟨h1, h2⟩ | ⟨h1, h2⟩ <;> subst h1 <;> subst h2 <;> decide
  have hcast : ((u - 1 : Nat) : Int) = (u : Int) - 1 := by omega
  have hval2 : ∀ c ∈ cs.set k p, c ≤ 2 := by
    intro c hc
    rcases List.mem_or_eq_of_mem_set hc with h | h
    · exact hval c h
    · omega
  have := ih ge q p (cs.set k p) (u - 1) (by tauto) hval2 hrec
  rw [boardOf_set cs k p hlen, cellOf_pos hp0, hcast, hq] at this
  exact this

/-- Soundness of the bound checker with respect to the search value. -/
theorem boundCheck_sound (f : Nat) :
    ∀ (ge : Bool) (p q : Nat) (cs : List Nat) (u : Nat),
      ((p = 1 ∧ q = 2) ∨ (p = 2 ∧ q = 1)) → (∀ c ∈ cs, c ≤ 2) →
      boundCheck f ge p q cs u = true →
      (ge = true → 0 ≤ negamaxValue f (boardOf cs) (u : Int) (p : Int)) ∧
      (ge = false → negamaxValue f (boardOf cs) (u : Int) (p : Int) ≤ 0) := by
  induction f with
  | zero =>
    intro ge p q cs u _ _ h
    simp [boundCheck] at h
  | succ f ih =>
    intro ge p q cs u hpq hval h
    rcases cs with _ | ⟨c0, _ | ⟨c1, _ | ⟨c2, _ | ⟨c3, _ | ⟨c4, _ | ⟨c5, _ | ⟨c6, _ | ⟨c7,
      _ | ⟨c8, _ | ⟨c9, t⟩⟩⟩⟩⟩⟩⟩⟩⟩⟩ <;> try (simp [boundCheck] at h; done)
    · simp only [boundCheck] at h
      have hcv := checkVictoryOn_boardOf c0 c1 c2 c3 c4 c5 c6 c7 c8 (u : Int)
      split at h
      · rename_i hfl
        rw [hfl] at hcv
        simp only [if_true] at hcv
        by_cases hu : u = 0
        · have h3 : checkVictoryOn (boardOf [c0, c1, c2, c3, c4, c5, c6, c7, c8]) (u : Int) = 3 := by
            rw [hcv]; simp [hu]
          rw [negamaxValue_drawn h3]
          simp
        · have h0 : checkVictoryOn (boardOf [c0, c1, c2, c3, c4, c5, c6, c7, c8]) (u : Int) = 0 := by
            rw [hcv]; simp [hu]
          simp only [beq_iff_eq, hu, if_false] at h
          cases ge with
          | false =>
            simp only [Bool.false_eq_true, if_false, Bool.and_eq_true, Bool.or_eq_true,
              bne_iff_ne, ne_eq] at h
            obtain ⟨⟨⟨⟨⟨⟨⟨⟨a0, a1⟩, a2⟩, a3⟩, a4⟩, a5⟩, a6⟩, a7⟩, a8⟩ := h
            have hall : ∀ k : Fin 9, ([c0, c1, c2, c3, c4, c5, c6, c7, c8] : List Nat).getD k 0 ≠ 0 ∨
                boundCheck f true q p (([c0, c1, c2, c3, c4, c5, c6, c7, c8] : List Nat).set k p) (u - 1) = true := by
              intro k
              fin_cases k
              exacts [a0, a1, a2, a3, a4, a5, a6, a7, a8]
            refine ⟨by simp, fun _ => value_le_of_moves h0 ?_⟩
            intro i hi
            rcases hall i with hne | hrec
            · exact absurd (cellOf_eq_empty.mp hi) hne
            · exact (child_bound ih hpq hval rfl hu i hrec).1 rfl
          | true =>
            simp only [if_true, Bool.and_eq_true, Bool.or_eq_true, beq_iff_eq] at h
            have hex : ∃ k : Fin 9, ([c0, c1, c2, c3, c4, c5, c6, c7, c8] : List Nat).getD k 0 = 0 ∧
                boundCheck f false q p (([c0, c1, c2, c3, c4, c5, c6, c7, c8] : List Nat).set k p) (u - 1) = true := by
              rcases h with ((((((((h | h) | h) | h) | h) | h) | h) | h) | h)
              exacts [⟨0, h⟩, ⟨1, h⟩, ⟨2, h⟩, ⟨3, h⟩, ⟨4, h⟩, ⟨5, h⟩, ⟨6, h⟩, ⟨7, h⟩, ⟨8, h⟩]
            obtain ⟨k, hk, hrec⟩ := hex
            refine ⟨fun _ => value_ge_of_move h0 k ?_ ((child_bound ih hpq hval rfl hu k hrec).2 rfl),
              by simp⟩
            exact cellOf_eq_empty.mpr hk
      · rename_i w hfl
        rw [hfl] at hcv
        simp only [Nat.add_one_ne_zero, if_false] at hcv
        have hle := firstLineN_le hval
        rw [hfl] at hle
        have hw : checkVictoryOn (boardOf [c0, c1, c2, c3, c4, c5, c6, c7, c8]) (u : Int) = 1 ∨
            checkVictoryOn (boardOf [c0, c1, c2, c3, c4, c5, c6, c7, c8]) (u : Int) = 2 := by
          rw [hcv]
          have : w = 0 ∨ w = 1 := by omega
          rcases this with rfl | rfl
          · left; rfl
          · right; rfl
        rw [negamaxValue_won hw, hcv]
        cases ge with
        | false =>
          simp only [Bool.false_eq_true, if_false, bne_iff_ne, ne_eq] at h
          refine ⟨by simp, fun _ => ?_⟩
          have hne : ¬ ((p : Int) = ((w + 1 : Nat) : Int)) := by
            intro e
            exact h (Nat.cast_inj.mp e).symm
          rw [if_neg hne]
          norm_num
        | true =>
          simp only [if_true, beq_iff_eq] at h
          refine ⟨fun _ => ?_, by simp⟩
          rw [← h, if_pos rfl]
          norm_num

/-! ### Independence of the fuel -/

theorem negamaxValue_fuel_succ (f : Nat) :
    ∀ (b : Board) (u p : Int), SideValid p → emptyCount b < f →
      negamaxValue (f + 1) b u p = negamaxValue f b u p := by
  induction f with
  | zero => intro b u p _ h; omega
  | succ f ih =>
    intro b u p hp hn
    have hsc : ∀ j : Fin 9, scoreOf (negamaxValue (f + 1)) b u p j
        = scoreOf (negamaxValue f) b u p j := by
      intro j
      by_cases hj : b j = -1
      · have hc := emptyCount_update (v := p) hj (sideValid_ne_empty hp)
        simp only [scoreOf, hj, if_true]
        rw [ih _ _ _ (xor_three_valid hp) (by omega)]
      · simp only [scoreOf, hj, if_false]
    have hmap : (List.finRange 9).map (scoreOf (negamaxValue (f + 1)) b u p)
        = (List.finRange 9).map (scoreOf (negamaxValue f) b u p) :=
      List.map_congr_left (fun j _ => hsc j)
    rw [negamaxValue, negamaxValue, hmap]

theorem negamaxValue_fuel {f g : Nat} {b : Board} (u : Int) {p : Int} (hp : SideValid p)
    (hf : emptyCount b < f) (hfg : f ≤ g) : negamaxValue g b u p = negamaxValue f b u p := by
  induction g with
  | zero => have : f = 0 := by omega
            subst this; rfl
  | succ g ih =>
    by_cases h : f ≤ g
    · rw [negamaxValue_fuel_succ g b u p hp (by omega), ih h]
    · have : f = g + 1 := by omega
      subst this; rfl

theorem runComputerValue_eq {fuel : Nat} {s : State} (hr : SearchReady s)
    (hn : emptyCount s.ttt_board ≤ fuel) :
    runComputerValue fuel s = some (maxScoreLoop ((List.finRange 9).map
      (scoreOf (negamaxValue fuel) s.ttt_board s.unoccupiedSq s.negamaxCurrPlayer)) (-3)) := by
  obtain ⟨bs, hsc, _⟩ := runComputerScores_ok hr hn
  simp only [runComputerValue, hsc, bestMoveLoop_fst]

/-! ### The value of the empty board -/

theorem emptyBoard_check_ge : boundCheck 10 true 1 2 [0, 0, 0, 0, 0, 0, 0, 0, 0] 9 = true := by
  decide!

theorem emptyBoard_check_le : boundCheck 10 false 1 2 [0, 0, 0, 0, 0, 0, 0, 0, 0] 9 = true := by
  decide!

theorem boardOf_zeros : boardOf [0, 0, 0, 0, 0, 0, 0, 0, 0] = emptyBoard := by
  funext i
  fin_cases i <;> rfl

theorem emptyCount_emptyBoard : emptyCount emptyBoard = 9 := by
  simp [emptyCount, emptyBoard]

theorem negamaxValue_emptyBoard : negamaxValue 10 emptyBoard 9 1 = 0 := by
  have hv : ∀ c ∈ [0, 0, 0, 0, 0, 0, 0, 0, 0], c ≤ 2 := by decide
  have hge := (boundCheck_sound 10 true 1 2 _ 9 (Or.inl ⟨rfl, rfl⟩) hv emptyBoard_check_ge).1 rfl
  have hle := (boundCheck_sound 10 false 1 2 _ 9 (Or.inl ⟨rfl, rfl⟩) hv emptyBoard_check_le).2 rfl
  rw [boardOf_zeros] at hge hle
  exact le_antisymm hle hge

theorem negamaxValue_emptyBoard_fuel {fuel : Nat} (hfuel : 9 < fuel) :
    negamaxValue fuel emptyBoard 9 1 = 0 := by
  rw [negamaxValue_fuel 9 (Or.inl rfl) (by rw [emptyCount_emptyBoard]; omega)
    (show 10 ≤ fuel by omega)]
  exact negamaxValue_emptyBoard

theorem checkVictoryOn_emptyBoard : checkVictoryOn emptyBoard 9 = 0 := by
  decide

/-! ### The game loop never returns -/

theorem andThen_noReturn (r : Run) {k : State → List Key → Run}
    (hk : ∀ s rest, (k s rest).NoReturn) : (r.andThen k).NoReturn := by
  cases r with
  | returned s rest => exact hk s rest
  | exited s => intro _ _ h; cases h
  | waiting pr s => intro _ _ h; cases h
  | undefinedAccess => intro _ _ h; cases h
  | outOfFuel => intro _ _ h; cases h

theorem andThen_of_noReturn {r : Run} (h : r.NoReturn) (k : State → List Key → Run) :
    r.andThen k = r := by
  cases r with
  | returned s rest => exact absurd rfl (h s rest)
  | exited s => rfl
  | waiting pr s => rfl
  | undefinedAccess => rfl
  | outOfFuel => rfl

theorem finishMove_noReturn {human computer : State → List Key → Run}
    (win : Int → State → List Key → Run) (hh : ∀ s rest, (human s rest).NoReturn)
    (hc : ∀ s rest, (computer s rest).NoReturn) (i : Fin 9) (s : State) (rest : List Key) :
    (finishMove human computer win i s rest).NoReturn := by
  unfold finishMove
  apply andThen_noReturn
  intro s2 rest2
  dsimp only
  split_ifs
  · exact hc _ _
  · exact hc _ _
  · exact hh _ _

/-- No function of the game loop ever returns to its caller: each one ends in
a call of another one. -/
theorem game_loop_noReturn (fuel : Nat) :
    (∀ s keys, (humanMove fuel s keys).NoReturn) ∧
    (∀ s keys, (computerMove fuel s keys).NoReturn) ∧
    (∀ v s keys, (winOrDraw fuel v s keys).NoReturn) ∧
    (∀ s keys, (startGame fuel s keys).NoReturn) := by
  induction fuel with
  | zero =>
    refine ⟨?_, ?_, ?_, ?_⟩
    · intro s keys _ _ h; simp [humanMove] at h
    · intro s keys _ _ h; simp [computerMove] at h
    · intro v s keys _ _ h; simp [winOrDraw] at h
    · intro s keys _ _ h; simp [startGame] at h
  | succ fuel ih =>
    obtain ⟨ihh, ihc, ihw, ihs⟩ := ih
    refine ⟨?_, ?_, ?_, ?_⟩
    · intro s keys
      rw [humanMove]
      cases navigate s keys with
      | more s1 => intro _ _ h; cases h
      | quit s1 => intro _ _ h; cases h
      | entered s1 rest =>
        dsimp only
        cases index? 9 ((s1.currGridY - 1) * 3 + (s1.currGridX - 1)) with
        | none => intro _ _ h; cases h
        | some i =>
          dsimp only
          exact andThen_noReturn _ (fun s2 rest2 => finishMove_noReturn _ ihh ihc i s2 rest2)
    · intro s keys
      rw [computerMove]
      cases runComputer searchDepth { s with negamaxCurrPlayer := s.currPlayer } with
      | none => intro _ _ h; cases h
      | some r =>
        obtain ⟨m, s1⟩ := r
        dsimp only
        cases index? 9 m with
        | none => intro _ _ h; cases h
        | some i => exact finishMove_noReturn _ ihh ihc i _ _
    · intro v s keys
      cases keys with
      | nil => intro _ _ h; simp [winOrDraw] at h
      | cons k rest =>
        rw [winOrDraw]
        exact ihs s rest
    · intro s keys
      rw [startGame]
      cases printmenu s keys with
      | more s1 => intro _ _ h; cases h
      | quit s1 => intro _ _ h; cases h
      | chosen s1 rest =>
        dsimp only
        split_ifs
        · exact ihh _ _
        · exact ihc _ _

/-! ### Legal play -/

theorem afterMove_board (i : Fin 9) (s : State) :
    (afterMove i s).ttt_board = Function.update s.ttt_board i s.currPlayer := by
  unfold afterMove
  split_ifs <;> rfl

theorem afterMove_counter (i : Fin 9) (s : State) :
    (afterMove i s).unoccupiedSq = s.unoccupiedSq - 1 := by
  unfold afterMove
  split_ifs <;> rfl

theorem afterMove_stackTop (i : Fin 9) (s : State) :
    (afterMove i s).stackTop = s.stackTop := by
  unfold afterMove
  split_ifs <;> rfl

theorem afterMove_checkVictory (i : Fin 9) (s : State) :
    checkVictory (afterMove i s)
      = checkVictoryOn (Function.update s.ttt_board i s.currPlayer) (s.unoccupiedSq - 1) := by
  unfold checkVictory
  rw [afterMove_board, afterMove_counter]

theorem afterMove_currPlayer (i : Fin 9) (s : State) :
    (checkVictory (afterMove i s) = 0 → (afterMove i s).currPlayer = Int.xor s.currPlayer 3) ∧
    (checkVictory (afterMove i s) ≠ 0 → (afterMove i s).currPlayer = s.currPlayer) := by
  have hcv := afterMove_checkVictory i s
  have hm : checkVictory (markSquare i s)
      = checkVictoryOn (Function.update s.ttt_board i s.currPlayer) (s.unoccupiedSq - 1) := rfl
  rw [hcv, ← hm]
  unfold afterMove
  constructor
  · intro h0
    rw [if_neg (not_not.mpr h0)]
    rfl
  · intro h0
    rw [if_pos h0]
    rfl

theorem afterMove_sideValid (i : Fin 9) {s : State} (h : SideValid s.currPlayer) :
    SideValid (afterMove i s).currPlayer := by
  by_cases h0 : checkVictory (afterMove i s) = 0
  · rw [(afterMove_currPlayer i s).1 h0]
    exact xor_three_valid h
  · rw [(afterMove_currPlayer i s).2 h0]
    exact h

theorem not_lineWon_of_ongoing {b : Board} (hb : CellsValid b) {u : Int}
    (h0 : checkVictoryOn b u = 0) : ∀ l ∈ scoring, ¬ lineWon b l := by
  rcases checkVictoryOn_cases hb u with ⟨l, _, _, e, hm⟩ | ⟨_, _, e⟩ | ⟨hn, _, _⟩
  · rw [h0] at e
    rcases hm with hm | hm <;> rw [hm] at e <;> exact absurd e (by decide)
  · rw [h0] at e; exact absurd e (by decide)
  · exact hn

/-- A line completed right after a mark was placed on a board without a
completed line carries that mark. -/
theorem lineWon_after_mark {b : Board} {i : Fin 9} {p : Int} {l : Fin 9 × Fin 9 × Fin 9}
    (hold : ¬ lineWon b l) (hnew : lineWon (Function.update b i p) l) :
    Function.update b i p l.1 = p := by
  obtain ⟨h1, h2, h3⟩ := hnew
  by_cases e1 : l.1 = i
  · rw [e1, Function.update_same]
  · by_cases e2 : l.2.1 = i
    · rw [h2, e2, Function.update_same]
    · by_cases e3 : l.2.2 = i
      · rw [h2, h3, e3, Function.update_same]
      · exfalso
        apply hold
        rw [Function.update_noteq e1] at h1 h2
        rw [Function.update_noteq e2] at h2 h3
        rw [Function.update_noteq e3] at h3
        exact ⟨h1, h2, h3⟩

theorem oneMark_after_mark {b : Board} (hb : CellsValid b) {u : Int}
    (h0 : checkVictoryOn b u = 0) (i : Fin 9) (p : Int) :
    OneMark (Function.update b i p) := by
  intro l1 hl1 l2 hl2 w1 w2
  have hn := not_lineWon_of_ongoing hb h0
  rw [lineWon_after_mark (hn l1 hl1) w1, lineWon_after_mark (hn l2 hl2) w2]

theorem emptyBoard_not_lineWon (l : Fin 9 × Fin 9 × Fin 9) : ¬ lineWon emptyBoard l := by
  intro h
  exact h.1 rfl

theorem legalPlay_invariant {s : State} (h : LegalPlay s) :
    CellsValid s.ttt_board ∧ SideValid s.currPlayer ∧ OneMark s.ttt_board := by
  induction h with
  | start s one two =>
    refine ⟨fun _ => Or.inl rfl, Or.inl rfl, ?_⟩
    intro l1 _ l2 _ w1 _
    exact absurd w1 (emptyBoard_not_lineWon l1)
  | move s i _ h0 _ ih =>
    obtain ⟨hb, hp, _⟩ := ih
    refine ⟨?_, afterMove_sideValid i hp, ?_⟩
    · rw [afterMove_board]
      exact cellsValid_update hb i hp
    · rw [afterMove_board]
      exact oneMark_after_mark hb h0 i _

theorem checkLines_isSome {b : Board} {t : List (Fin 9 × Fin 9 × Fin 9)}
    {l : Fin 9 × Fin 9 × Fin 9} (hl : l ∈ t) (hw : lineWon b l) :
    ∃ w, checkLines b t = some w := by
  cases h : checkLines b t with
  | none => exact absurd hw (checkLines_eq_none h l hl)
  | some w => exact ⟨w, rfl⟩

/-- On a board whose completed lines all carry the same mark, the result of
`checkVictory` does not depend on the order of the line table. -/
theorem checkVictoryWith_perm {b : Board} (hone : OneMark b) (u : Int)
    {table : List (Fin 9 × Fin 9 × Fin 9)} (hperm : table.Perm scoring) :
    checkVictoryWith table b u = checkVictoryWith scoring b u := by
  unfold checkVictoryWith
  cases h1 : checkLines b table with
  | none =>
    have hn := checkLines_eq_none h1
    rw [checkLines_none scoring (fun l hl => hn l (hperm.mem_iff.mpr hl))]
  | some w =>
    obtain ⟨l, hl, hw, rfl⟩ := checkLines_some h1
    obtain ⟨w2, h2⟩ := checkLines_isSome (hperm.mem_iff.mp hl) hw
    rw [h2]
    obtain ⟨l2, hl2, hw2, rfl⟩ := checkLines_some h2
    exact hone l (hperm.mem_iff.mp hl) l2 hl2 hw hw2

/-! ### Playing against the engine -/

theorem sideValid_ne_xor {p : Int} (hp : SideValid p) : p ≠ Int.xor p 3 := by
  rcases hp with rfl | rfl <;> decide

theorem sideValid_other {p e : Int} (hp : SideValid p) (he : SideValid e) (hne : p ≠ e) :
    p = Int.xor e 3 ∧ Int.xor p 3 = e := by
  rcases hp with rfl | rfl <;> rcases he with rfl | rfl <;>
    first | exact absurd rfl hne | exact ⟨by decide, by decide⟩

theorem exists_empty_of_ongoing {s : State} (hb : CellsValid s.ttt_board) (hc : CountExact s)
    (h0 : checkVictory s = 0) : ∃ i, s.ttt_board i = -1 := by
  rcases checkVictoryOn_cases hb s.unoccupiedSq with ⟨l, _, _, e, hm⟩ | ⟨_, _, e⟩ | ⟨_, hu, _⟩
  · have h0b : checkVictoryOn s.ttt_board s.unoccupiedSq = 0 := h0
    rw [h0b] at e
    rcases hm with hm | hm <;> rw [hm] at e <;> exact absurd e (by decide)
  · have h0b : checkVictoryOn s.ttt_board s.unoccupiedSq = 0 := h0
    rw [h0b] at e; exact absurd e (by decide)
  · apply exists_empty_of_pos
    unfold CountExact at hc
    omega

/-- The score of a move is at most the value of the position. -/
theorem score_le_value {f : Nat} {b : Board} {u p : Int} (hp : SideValid p)
    (hn : emptyCount b < f) (h0 : checkVictoryOn b u = 0) (i : Fin 9) :
    scoreOf (negamaxValue f) b u p i ≤ negamaxValue f b u p := by
  rw [← negamaxValue_fuel_succ f b u p hp hn, negamaxValue_ongoing h0]
  exact maxScoreLoop_ge_mem _ _ _ (List.mem_map.mpr ⟨i, List.mem_finRange i, rfl⟩)

/-- The value of a won position for the side `q` to move: `1` for the winner
and `-1` for the other side. -/
theorem value_of_won {f : Nat} {b : Board} {u q : Int}
    (hw : checkVictoryOn b u = 1 ∨ checkVictoryOn b u = 2) :
    (q = checkVictoryOn b u → negamaxValue (f + 1) b u q = 1) ∧
    (q ≠ checkVictoryOn b u → negamaxValue (f + 1) b u q = -1) := by
  rw [negamaxValue_won hw]
  constructor
  · intro h; rw [if_pos h]
  · intro h; rw [if_neg h]

/-- One move keeps the invariant, given the bound on the value of the new
position for the side that moves next. -/
theorem engineSafe_afterMove {e : Int} {f : Nat} (he : SideValid e) {s : State} (i : Fin 9)
    (hb : CellsValid s.ttt_board) (hc : CountExact s) (hst : s.stackTop = 0)
    (hp : SideValid s.currPlayer) (hi : s.ttt_board i = -1)
    (hval : (s.currPlayer = e →
        negamaxValue (f + 1) (Function.update s.ttt_board i s.currPlayer) (s.unoccupiedSq - 1)
          (Int.xor e 3) ≤ 0) ∧
      (s.currPlayer ≠ e →
        0 ≤ negamaxValue (f + 1) (Function.update s.ttt_board i s.currPlayer)
          (s.unoccupiedSq - 1) e)) :
    EngineSafe e (f + 1) (afterMove i s) := by
  have hcount : CountExact (afterMove i s) := by
    unfold CountExact
    rw [afterMove_board, afterMove_counter]
    have := emptyCount_update (v := s.currPlayer) hi (sideValid_ne_empty hp)
    unfold CountExact at hc
    omega
  have hopp : checkVictory (afterMove i s) ≠ Int.xor e 3 := by
    rw [afterMove_checkVictory]
    intro hwin
    have hw : checkVictoryOn (Function.update s.ttt_board i s.currPlayer) (s.unoccupiedSq - 1) = 1 ∨
        checkVictoryOn (Function.update s.ttt_board i s.currPlayer) (s.unoccupiedSq - 1) = 2 := by
      rw [hwin]; exact xor_three_valid he
    by_cases hpe : s.currPlayer = e
    · have h1 := (value_of_won (f := f) (q := Int.xor e 3) hw).1 hwin.symm
      have := hval.1 hpe
      omega
    · have h1 := (value_of_won (f := f) (q := e) hw).2 (by rw [hwin]; exact sideValid_ne_xor he)
      have := hval.2 hpe
      omega
  refine ⟨?_, hcount, ?_, afterMove_sideValid i hp, hopp, ?_⟩
  · rw [afterMove_board]; exact cellsValid_update hb i hp
  · rw [afterMove_stackTop]; exact hst
  · intro h0
    rw [(afterMove_currPlayer i s).1 h0, afterMove_board, afterMove_counter]
    by_cases hpe : s.currPlayer = e
    · refine ⟨fun h => absurd h ?_, fun _ => ?_⟩
      · rw [hpe]; exact (sideValid_ne_xor he).symm
      · have h := hval.1 hpe
        rw [hpe] at h ⊢
        exact h
    · have ho := sideValid_other hp he hpe
      refine ⟨fun _ => hval.2 hpe, fun h => absurd ho.2 h⟩

theorem engineSafe_start {e : Int} (he : SideValid e) {fuel : Nat} (hfuel : 9 < fuel)
    (s : State) (one two : Player) (hst : s.stackTop = 0) :
    EngineSafe e fuel (newGame one two s) := by
  have hv : negamaxValue fuel emptyBoard 9 1 = 0 := negamaxValue_emptyBoard_fuel hfuel
  have hcv : checkVictory (newGame one two s) = 0 := checkVictoryOn_emptyBoard
  refine ⟨fun _ => Or.inl rfl, ?_, hst, Or.inl rfl, ?_, ?_⟩
  · show (9 : Int) = ((emptyCount emptyBoard : Nat) : Int)
    rw [emptyCount_emptyBoard]; rfl
  · rw [hcv]
    intro h
    rcases xor_three_valid he with h1 | h1 <;> rw [h1] at h <;> exact absurd h (by decide)
  · intro _
    constructor
    · intro h1
      have : e = 1 := h1.symm
      subst this
      exact le_of_eq hv.symm
    · intro _
      exact le_of_eq hv

theorem enginePlay_safe {e : Int} {fuel : Nat} (he : SideValid e) (hfuel : 9 < fuel)
    {s : State} (h : EnginePlay e fuel s) : EngineSafe e fuel s := by
  obtain ⟨f, rfl⟩ : ∃ f, fuel = f + 1 := ⟨fuel - 1, by omega⟩
  induction h with
  | start s one two hst => exact engineSafe_start he hfuel s one two hst
  | engine s s1 m i _ h0 hcur hrun hidx ih =>
    obtain ⟨hb, hc, hst, hp, _, hval⟩ := ih
    have hr : SearchReady { s with negamaxCurrPlayer := s.currPlayer } :=
      searchReady_of_stackTop (by show 0 ≤ s.stackTop; omega)
        (by show s.stackTop ≤ 91; omega) hp
    have hn : emptyCount s.ttt_board ≤ f + 1 := le_trans (emptyCount_le _) (by omega)
    obtain ⟨j, bs, hrun2, _, hj, hmax, _, _⟩ :=
      runComputer_choice (s := { s with negamaxCurrPlayer := s.currPlayer }) hr hb hc hn
        (exists_empty_of_ongoing hb hc h0)
    rw [hrun2] at hrun
    obtain ⟨hm, hs1⟩ := Prod.mk.inj (Option.some.inj hrun)
    subst hm
    rw [index?_natCast] at hidx
    have hji : j = i := Option.some.inj hidx
    subst hji
    subst hs1
    have hmaxv : scoreOf (negamaxValue (f + 1)) s.ttt_board s.unoccupiedSq s.currPlayer j
        = negamaxValue (f + 1) s.ttt_board s.unoccupiedSq s.currPlayer := by
      apply le_antisymm
      · exact score_le_value hp (lt_of_le_of_lt (emptyCount_le _) hfuel) h0 j
      · rw [← negamaxValue_fuel_succ (f + 1) _ _ _ hp (lt_of_le_of_lt (emptyCount_le _) hfuel),
          negamaxValue_ongoing h0]
        apply maxScoreLoop_le _ _ _
        · have := (scoreOf_range (f + 1) hb hp hc hn hj).1
          omega
        · intro x hx
          obtain ⟨k, _, rfl⟩ := List.mem_map.mp hx
          exact hmax k
    have hge := (hval h0).1 hcur
    refine engineSafe_afterMove he
      (s := { s with
        negamaxCurrPlayer := s.currPlayer
        board_stack := bs
        bestMove := ((j : Nat) : Int) }) j hb hc hst hp hj ?_
    show (s.currPlayer = e →
        negamaxValue (f + 1) (Function.update s.ttt_board j s.currPlayer) (s.unoccupiedSq - 1)
          (Int.xor e 3) ≤ 0) ∧
      (s.currPlayer ≠ e →
        0 ≤ negamaxValue (f + 1) (Function.update s.ttt_board j s.currPlayer)
          (s.unoccupiedSq - 1) e)
    constructor
    · intro _
      have hsc : scoreOf (negamaxValue (f + 1)) s.ttt_board s.unoccupiedSq s.currPlayer j
          = - negamaxValue (f + 1) (Function.update s.ttt_board j s.currPlayer)
              (s.unoccupiedSq - 1) (Int.xor s.currPlayer 3) := by
        have hj2 : s.ttt_board j = -1 := hj
        simp only [scoreOf, hj2, if_true]
      rw [hcur] at hsc hmaxv
      rw [hcur]
      omega
    · intro hne
      exact absurd hcur hne
  | opponent s i _ h0 hcur hi ih =>
    obtain ⟨hb, hc, hst, hp, _, hval⟩ := ih
    have hle := (hval h0).2 hcur
    have ho := sideValid_other hp he hcur
    have hsc := score_le_value (f := f + 1) (u := s.unoccupiedSq) hp
      (lt_of_le_of_lt (emptyCount_le s.ttt_board) hfuel) h0 i
    simp only [scoreOf, hi, if_true] at hsc
    rw [ho.2] at hsc
    apply engineSafe_afterMove he i hb hc hst hp hi
    constructor
    · intro h
      exact absurd h hcur
    · intro _
      omega

/-! ### The counter during a whole game -/

theorem emptyCount_clear {b : Board} {i : Fin 9} (hi : b i ≠ -1) :
    emptyCount (Function.update b i (-1)) = emptyCount b + 1 := by
  have h := emptyCount_update (b := Function.update b i (-1)) (i := i) (v := b i)
    (Function.update_same _ _ _) hi
  rw [Function.update_idem, Function.update_eq_self] at h
  omega

theorem markSquare_exact {s : State} (i : Fin 9) (hc : CountExact s)
    (hp : SideValid s.currPlayer) (hi : s.ttt_board i = -1) : CountExact (markSquare i s) := by
  have := emptyCount_update (v := s.currPlayer) hi (sideValid_ne_empty hp)
  unfold CountExact at hc ⊢
  show s.unoccupiedSq - 1 = ((emptyCount (Function.update s.ttt_board i s.currPlayer) : Nat) : Int)
  omega

theorem makeMove_exact {s s1 : State} (i : Fin 9) {side : Int} (hc : CountExact s)
    (hside : SideValid side) (hi : s.ttt_board i = -1)
    (hmk : negamaxMakeMove ((i : Nat) : Int) side s = some s1) : CountExact s1 := by
  unfold negamaxMakeMove at hmk
  rw [index?_natCast] at hmk
  cases hk : index? 100 s.stackTop with
  | none => rw [hk] at hmk; simp at hmk
  | some k =>
    rw [hk] at hmk
    simp only [Option.some.injEq] at hmk
    subst hmk
    have := emptyCount_update (v := side) hi (sideValid_ne_empty hside)
    unfold CountExact at hc ⊢
    show s.unoccupiedSq - 1 = ((emptyCount (Function.update s.ttt_board i side) : Nat) : Int)
    omega

theorem undoMove_exact {s s1 : State} {k : Fin 100} {i : Fin 9} (hc : CountExact s)
    (hk : index? 100 (s.stackTop - 1) = some k) (hi : index? 9 (s.board_stack k) = some i)
    (hocc : s.ttt_board i ≠ -1) (hun : negamaxUndoMove s = some s1) : CountExact s1 := by
  unfold negamaxUndoMove at hun
  rw [hk] at hun
  simp only [hi, Option.some.injEq] at hun
  subst hun
  have := emptyCount_clear hocc
  unfold CountExact at hc ⊢
  show s.unoccupiedSq + 1 = ((emptyCount (Function.update s.ttt_board i (-1)) : Nat) : Int)
  omega

theorem sameButCursor_refl {s : State} (h : CursorOK s) : SameButCursor s s :=
  ⟨s.currGridX, s.currGridY, rfl, h⟩

theorem navigate_sameButCursor (keys : List Key) :
    ∀ s : State, CursorOK s → SameButCursor s (navigate s keys).state := by
  induction keys with
  | nil => intro s h; exact sameButCursor_refl h
  | cons k rest ih =>
    intro s h
    obtain ⟨h1, h2, h3, h4⟩ := h
    cases k with
    | enter => exact sameButCursor_refl ⟨h1, h2, h3, h4⟩
    | f1 => exact sameButCursor_refl ⟨h1, h2, h3, h4⟩
    | left =>
      obtain ⟨x, y, e, hx⟩ := ih { s with currGridX := if s.currGridX = 1 then 3 else s.currGridX - 1 }
        ⟨by show 1 ≤ (if s.currGridX = 1 then 3 else s.currGridX - 1); split_ifs <;> omega,
         by show (if s.currGridX = 1 then 3 else s.currGridX - 1) ≤ 3; split_ifs <;> omega, h3, h4⟩
      exact ⟨x, y, by rw [navigate, e], hx⟩
    | right =>
      obtain ⟨x, y, e, hx⟩ := ih { s with currGridX := if s.currGridX = 3 then 1 else s.currGridX + 1 }
        ⟨by show 1 ≤ (if s.currGridX = 3 then 1 else s.currGridX + 1); split_ifs <;> omega,
         by show (if s.currGridX = 3 then 1 else s.currGridX + 1) ≤ 3; split_ifs <;> omega, h3, h4⟩
      exact ⟨x, y, by rw [navigate, e], hx⟩
    | up =>
      obtain ⟨x, y, e, hx⟩ := ih { s with currGridY := if s.currGridY = 1 then 3 else s.currGridY - 1 }
        ⟨h1, h2,
         by show 1 ≤ (if s.currGridY = 1 then 3 else s.currGridY - 1); split_ifs <;> omega,
         by show (if s.currGridY = 1 then 3 else s.currGridY - 1) ≤ 3; split_ifs <;> omega⟩
      exact ⟨x, y, by rw [navigate, e], hx⟩
    | down =>
      obtain ⟨x, y, e, hx⟩ := ih { s with currGridY := if s.currGridY = 3 then 1 else s.currGridY + 1 }
        ⟨h1, h2,
         by show 1 ≤ (if s.currGridY = 3 then 1 else s.currGridY + 1); split_ifs <;> omega,
         by show (if s.currGridY = 3 then 1 else s.currGridY + 1) ≤ 3; split_ifs <;> omega⟩
      exact ⟨x, y, by rw [navigate, e], hx⟩
    | one => exact ih s ⟨h1, h2, h3, h4⟩
    | two => exact ih s ⟨h1, h2, h3, h4⟩
    | three => exact ih s ⟨h1, h2, h3, h4⟩
    | four => exact ih s ⟨h1, h2, h3, h4⟩
    | other => exact ih s ⟨h1, h2, h3, h4⟩

theorem moveReady_of_sameButCursor {s s1 : State} (h : MoveReady s) (hs : SameButCursor s s1) :
    MoveReady s1 := by
  obtain ⟨x, y, rfl, hx⟩ := hs
  obtain ⟨a, b, c, d, e, _⟩ := h
  exact ⟨a, b, c, d, e, hx⟩

theorem printmenu_cases (keys : List Key) (s : State) :
    (∃ one two rest, printmenu s keys = Menu.chosen (setPlayer one two s) rest) ∨
    printmenu s keys = Menu.quit s ∨ printmenu s keys = Menu.more s := by
  induction keys with
  | nil => right; right; rfl
  | cons k rest ih =>
    cases k with
    | one => left; exact ⟨_, _, rest, rfl⟩
    | two => left; exact ⟨_, _, rest, rfl⟩
    | three => left; exact ⟨_, _, rest, rfl⟩
    | four => left; exact ⟨_, _, rest, rfl⟩
    | f1 => right; left; rfl
    | left => simpa [printmenu] using ih
    | right => simpa [printmenu] using ih
    | up => simpa [printmenu] using ih
    | down => simpa [printmenu] using ih
    | enter => simpa [printmenu] using ih
    | other => simpa [printmenu] using ih

theorem checkVictory_newGame (one two : Player) (s : State) :
    checkVictory (newGame one two s) = 0 := checkVictoryOn_emptyBoard

theorem drawboard_exact (s : State) : CountExact (drawboard s) := by
  show (9 : Int) = ((emptyCount emptyBoard : Nat) : Int)
  rw [emptyCount_emptyBoard]; rfl

theorem finishMove_exact {human computer : State → List Key → Run}
    {win : Int → State → List Key → Run}
    (hh : ∀ s rest, MoveReady s → (human s rest).Exact)
    (hc : ∀ s rest, MoveReady s → (computer s rest).Exact)
    (hw : ∀ v s rest, CountExact s → s.stackTop = 0 → (win v s rest).Exact)
    (hwn : ∀ v s rest, (win v s rest).NoReturn)
    (i : Fin 9) (s : State) (rest : List Key) (hs : MoveReady s) (hi : s.ttt_board i = -1) :
    (finishMove human computer win i s rest).Exact := by
  obtain ⟨hce, hb, hst, hp, _, hcur⟩ := hs
  have hm := markSquare_exact i hce hp hi
  unfold finishMove
  by_cases hv : checkVictory (markSquare i s) ≠ 0
  · simp only [if_pos hv]
    rw [andThen_of_noReturn (hwn _ _ _)]
    exact hw _ _ _ hm hst
  · simp only [if_neg hv]
    have hready : MoveReady (switchPlayer (markSquare i s)) :=
      ⟨hm, cellsValid_update hb i hp, hst, xor_three_valid hp, not_not.mp hv, hcur⟩
    show Run.Exact (if _ then _ else if _ then _ else _)
    split_ifs
    · exact hc _ _ hready
    · exact hc _ _ hready
    · exact hh _ _ hready

theorem bestMove_cursor : ∀ j : Fin 9,
    1 ≤ Int.tmod ((j : Nat) : Int) 3 + 1 ∧ Int.tmod ((j : Nat) : Int) 3 + 1 ≤ 3 ∧
    1 ≤ Int.tdiv ((j : Nat) : Int) 3 + 1 ∧ Int.tdiv ((j : Nat) : Int) 3 + 1 ≤ 3 := by
  decide

/-- Started from a state with an exact counter and an empty stack, the game
loop makes no out-of-bounds access and the counter is exact in every state in
which it waits for a key or exits. -/
theorem game_loop_exact (fuel : Nat) :
    (∀ s keys, MoveReady s → (humanMove fuel s keys).Exact) ∧
    (∀ s keys, MoveReady s → (computerMove fuel s keys).Exact) ∧
    (∀ v s keys, CountExact s → s.stackTop = 0 → (winOrDraw fuel v s keys).Exact) ∧
    (∀ s keys, CountExact s → s.stackTop = 0 → (startGame fuel s keys).Exact) := by
  induction fuel with
  | zero =>
    refine ⟨?_, ?_, ?_, ?_⟩
    · intro s keys _; simp [humanMove, Run.Exact]
    · intro s keys _; simp [computerMove, Run.Exact]
    · intro v s keys _ _; simp [winOrDraw, Run.Exact]
    · intro s keys _ _; simp [startGame, Run.Exact]
  | succ fuel ih =>
    obtain ⟨ihh, ihc, ihw, ihs⟩ := ih
    have hwn := (game_loop_noReturn fuel).2.2.1
    refine ⟨?_, ?_, ?_, ?_⟩
    · intro s keys hs
      have hnav := navigate_sameButCursor keys s hs.2.2.2.2.2
      rw [humanMove]
      cases hn : navigate s keys with
      | more s1 =>
        rw [hn] at hnav
        exact (moveReady_of_sameButCursor hs hnav).1
      | quit s1 =>
        rw [hn] at hnav
        exact (moveReady_of_sameButCursor hs hnav).1
      | entered s1 rest =>
        rw [hn] at hnav
        have hs1 : MoveReady s1 := moveReady_of_sameButCursor hs hnav
        obtain ⟨c1, c2, c3, c4⟩ := hs1.2.2.2.2.2
        obtain ⟨i, hi, _⟩ := index?_eq_some (n := 9)
          (x := (s1.currGridY - 1) * 3 + (s1.currGridX - 1)) (by omega) (by omega)
        simp only [hi]
        by_cases hocc : s1.ttt_board i ≠ -1
        · rw [if_pos hocc, andThen_of_noReturn ((game_loop_noReturn fuel).1 s1 rest)]
          exact ihh s1 rest hs1
        · rw [if_neg hocc]
          exact finishMove_exact ihh ihc ihw hwn i s1 rest hs1 (not_not.mp hocc)
    · intro s keys hs
      obtain ⟨hce, hb, hst, hp, h0, hcur⟩ := hs
      have hr : SearchReady { s with negamaxCurrPlayer := s.currPlayer } :=
        searchReady_of_stackTop (by show 0 ≤ s.stackTop; omega)
          (by show s.stackTop ≤ 91; omega) hp
      obtain ⟨j, bs, hrun, _, hj, _⟩ :=
        @runComputer_choice searchDepth
          { s with negamaxCurrPlayer := s.currPlayer } hr hb hce
          (le_trans (emptyCount_le _) (by decide)) (exists_empty_of_ongoing hb hce h0)
      rw [computerMove]
      simp only [hrun, index?_natCast]
      exact finishMove_exact ihh ihc ihw hwn j _ keys
        ⟨hce, hb, hst, hp, h0, bestMove_cursor j⟩ hj
    · intro v s keys hce hst
      cases keys with
      | nil => simpa [winOrDraw, Run.Exact] using hce
      | cons k rest =>
        rw [winOrDraw]
        exact ihs s rest hce hst
    · intro s keys hce hst
      rw [startGame]
      rcases printmenu_cases keys s with ⟨one, two, rest, h⟩ | h | h
      · rw [h]
        have hready : MoveReady (newGame one two s) :=
          ⟨drawboard_exact (setPlayer one two s), fun _ => Or.inl rfl, hst, Or.inl rfl,
            checkVictory_newGame one two s, by
              show (1 : Int) ≤ 2 ∧ (2 : Int) ≤ 3 ∧ (1 : Int) ≤ 2 ∧ (2 : Int) ≤ 3
              decide⟩
        show Run.Exact (if _ then _ else _)
        split_ifs
        · exact ihh _ _ hready
        · exact ihc _ _ hready
      · rw [h]; exact hce
      · rw [h]; exact hce

theorem makeMove_undoMove {s s1 s2 : State} (i : Fin 9) {side : Int}
    (hi : s.ttt_board i = -1) (hmk : negamaxMakeMove ((i : Nat) : Int) side s = some s1)
    (hun : negamaxUndoMove s1 = some s2) :
    s2.ttt_board = s.ttt_board ∧ s2.unoccupiedSq = s.unoccupiedSq ∧ s2.stackTop = s.stackTop := by
  unfold negamaxMakeMove at hmk
  rw [index?_natCast] at hmk
  cases hk : index? 100 s.stackTop with
  | none => rw [hk] at hmk; simp at hmk
  | some k =>
    rw [hk] at hmk
    simp only [Option.some.injEq] at hmk
    subst hmk
    have hundo := undoMove_eq (s := { s with
        ttt_board := Function.update s.ttt_board i side
        unoccupiedSq := s.unoccupiedSq - 1
        board_stack := Function.update s.board_stack k ((i : Nat) : Int)
        stackTop := s.stackTop + 1
        negamaxCurrPlayer := Int.xor s.negamaxCurrPlayer 3 }) (i := i) (k := k)
      (by show index? 100 (s.stackTop + 1 - 1) = some k; rw [add_sub_cancel_right]; exact hk)
      (Function.update_same _ _ _)
    rw [hundo] at hun
    simp only [Option.some.injEq] at hun
    subst hun
    refine ⟨update_undo side hi, ?_, ?_⟩
    · show s.unoccupiedSq - 1 + 1 = s.unoccupiedSq
      omega
    · show s.stackTop + 1 - 1 = s.stackTop
      omega

theorem initialState_exact : CountExact initialState := by
  unfold CountExact
  decide

/-! ### A game played by the engine -/

/-- When the square `k` is empty, no earlier square is empty and no square
scores more than `k`, `runComputer` returns `k`. -/
theorem runComputer_choice_eq {fuel : Nat} {s : State} (hr : SearchReady s)
    (hb : CellsValid s.ttt_board) (hc : CountExact s) (hn : emptyCount s.ttt_board ≤ fuel)
    (k : Fin 9) (hk : s.ttt_board k = -1) (hbefore : ∀ j, j < k → s.ttt_board j ≠ -1)
    (hbest : ∀ j, scoreOf (negamaxValue fuel) s.ttt_board s.unoccupiedSq s.negamaxCurrPlayer j
      ≤ scoreOf (negamaxValue fuel) s.ttt_board s.unoccupiedSq s.negamaxCurrPlayer k) :
    ∃ bs, runComputer fuel s
      = some (((k : Nat) : Int), { s with board_stack := bs, bestMove := ((k : Nat) : Int) }) := by
  obtain ⟨i, bs, hrun, _, hi, _, hfirst, _⟩ := runComputer_choice hr hb hc hn ⟨k, hk⟩
  have hik : i = k := by
    rcases lt_trichotomy i k with h | h | h
    · exact absurd hi (hbefore i h)
    · exact h
    · have h1 := hfirst k h
      have h2 := hbest i
      omega
  subst hik
  exact ⟨bs, hrun⟩

theorem position_afterMove {s : State} {cs cs1 : List Nat} {u u1 p : Int}
    (h : Position s cs u p) (k : Fin 9) (c : Nat) (hlen : cs.length = 9) (hc : cellOf c = p)
    (hset : cs.set k c = cs1) (hu : u - 1 = u1) :
    (checkVictoryOn (boardOf cs1) u1 = 0 →
      checkVictory (afterMove k s) = 0 ∧ Position (afterMove k s) cs1 u1 (Int.xor p 3)) ∧
    (checkVictoryOn (boardOf cs1) u1 ≠ 0 →
      checkVictory (afterMove k s) = checkVictoryOn (boardOf cs1) u1 ∧
        Position (afterMove k s) cs1 u1 p) := by
  obtain ⟨hb, hcnt, hp⟩ := h
  have hb1 : (afterMove k s).ttt_board = boardOf cs1 := by
    rw [afterMove_board, hb, hp, ← hc, ← boardOf_set cs k c hlen, hset]
  have hc1 : (afterMove k s).unoccupiedSq = u1 := by
    rw [afterMove_counter, hcnt, hu]
  have hcv : checkVictory (afterMove k s) = checkVictoryOn (boardOf cs1) u1 := by
    unfold checkVictory
    rw [hb1, hc1]
  constructor
  · intro h0
    rw [← hcv] at h0
    exact ⟨h0, hb1, hc1, by rw [(afterMove_currPlayer k s).1 h0, hp]⟩
  · intro h0
    rw [← hcv] at h0
    exact ⟨hcv, hb1, hc1, by rw [(afterMove_currPlayer k s).2 h0, hp]⟩

/-- A move of the engine in a game, when `runComputer` is known to choose
square `k`. -/
theorem enginePlay_engine_move {e : Int} (he : SideValid e) {g : State} {cs : List Nat}
    {u : Int} (hplay : EnginePlay e 10 g) (hpos : Position g cs u e)
    (h0 : checkVictory g = 0) (k : Fin 9) (hk : boardOf cs k = -1)
    (hbefore : ∀ j, j < k → boardOf cs j ≠ -1)
    (hbest : ∀ j, scoreOf (negamaxValue 10) (boardOf cs) u e j
      ≤ scoreOf (negamaxValue 10) (boardOf cs) u e k) :
    ∃ s1, EnginePlay e 10 (afterMove k s1) ∧ Position s1 cs u e := by
  obtain ⟨hb, hc, hst, hp, _, _⟩ := enginePlay_safe he (by decide) hplay
  obtain ⟨hpb, hpu, hpp⟩ := hpos
  have hr : SearchReady { g with negamaxCurrPlayer := g.currPlayer } :=
    searchReady_of_stackTop (by show 0 ≤ g.stackTop; omega)
      (by show g.stackTop ≤ 91; omega) hp
  obtain ⟨bs, hrun⟩ := @runComputer_choice_eq 10
    { g with negamaxCurrPlayer := g.currPlayer } hr hb hc
    (le_trans (emptyCount_le _) (by decide)) k
    (by show g.ttt_board k = -1; rw [hpb]; exact hk)
    (by intro j hj; show g.ttt_board j ≠ -1; rw [hpb]; exact hbefore j hj)
    (by
      intro j
      show scoreOf (negamaxValue 10) g.ttt_board g.unoccupiedSq g.currPlayer j
        ≤ scoreOf (negamaxValue 10) g.ttt_board g.unoccupiedSq g.currPlayer k
      rw [hpb, hpu, hpp]
      exact hbest j)
  exact ⟨_, EnginePlay.engine g _ _ k hplay h0 hpp hrun (index?_natCast 9 k), hpb, hpu, hpp⟩

/-- In a position of value at most 0, a move to a position of value at most 0
for the opponent scores at least as much as every other square. -/
theorem best_of_draw {b : Board} {u p : Int} (hp : SideValid p)
    (h0 : checkVictoryOn b u = 0) (k : Fin 9) (hk : b k = -1)
    (hpos : negamaxValue 10 b u p ≤ 0)
    (hchild : negamaxValue 10 (Function.update b k p) (u - 1) (Int.xor p 3) ≤ 0) :
    ∀ j, scoreOf (negamaxValue 10) b u p j ≤ scoreOf (negamaxValue 10) b u p k := by
  intro j
  have h1 := score_le_value (f := 10) hp (lt_of_le_of_lt (emptyCount_le b) (by decide)) h0 j
  have h2 : scoreOf (negamaxValue 10) b u p k
      = - negamaxValue 10 (Function.update b k p) (u - 1) (Int.xor p 3) := by
    simp only [scoreOf, hk, if_true]
  omega

/-- A move that completes a line for the mover scores at least as much as every
other square. -/
theorem best_of_win {b : Board} {u p : Int} (hb : CellsValid b) (hp : SideValid p)
    (hu : u = (emptyCount b : Int)) (k : Fin 9) (hk : b k = -1)
    (hwin : checkVictoryOn (Function.update b k p) (u - 1) = p) :
    ∀ j, scoreOf (negamaxValue 10) b u p j ≤ scoreOf (negamaxValue 10) b u p k := by
  intro j
  have hw : checkVictoryOn (Function.update b k p) (u - 1) = 1 ∨
      checkVictoryOn (Function.update b k p) (u - 1) = 2 := by rw [hwin]; exact hp
  have hv := (value_of_won (f := 9) (q := Int.xor p 3) hw).2
    (by rw [hwin]; exact (sideValid_ne_xor hp).symm)
  have h2 : scoreOf (negamaxValue 10) b u p k = 1 := by
    simp only [scoreOf, hk, if_true, hv]
    rfl
  rw [h2]
  by_cases hj : b j = -1
  · exact (scoreOf_range 10 hb hp hu (le_trans (emptyCount_le b) (by decide)) hj).2
  · rw [scoreOf_occupied _ _ _ hj]
    decide

theorem value_le_of_check {p q : Nat} {cs : List Nat} {u : Nat}
    (hpq : (p = 1 ∧ q = 2) ∨ (p = 2 ∧ q = 1)) (hval : ∀ c ∈ cs, c ≤ 2)
    (h : boundCheck 10 false p q cs u = true) :
    negamaxValue 10 (boardOf cs) (u : Int) (p : Int) ≤ 0 :=
  (boundCheck_sound 10 false p q cs u hpq hval h).2 rfl

theorem check_after_corner :
    boundCheck 10 false 2 1 [1, 0, 0, 0, 0, 0, 0, 0, 0] 8 = true := by
  decide!

theorem check_after_centre :
    boundCheck 10 false 1 2 [1, 0, 0, 0, 2, 0, 0, 0, 0] 7 = true := by
  decide!

theorem check_after_edge :
    boundCheck 10 false 2 1 [1, 1, 0, 0, 2, 0, 0, 0, 0] 6 = true := by
  decide!

/-! ## The claims -/

/-- C1: on a board whose cells are `-1`, `1` or `2`, and for every value of the
counter `unoccupiedSq`, `checkVictory` returns the code of the outcome the
specification's evaluator gives; the result is the mark (1 or 2) on the first
completed line of the table in its fixed order, and when no line is completed
it is 3 if the counter is 0 and 0 otherwise. -/
theorem checkVictory_refines_evaluate (s : State) (hb : CellsValid s.ttt_board) :
    checkVictory s = (evaluateSpec s.ttt_board s.unoccupiedSq).code ∧
    (∀ pre l post, scoring = pre ++ l :: post → lineWon s.ttt_board l →
      (∀ x ∈ pre, ¬ lineWon s.ttt_board x) →
      checkVictory s = s.ttt_board l.1 ∧ (s.ttt_board l.1 = 1 ∨ s.ttt_board l.1 = 2)) ∧
    ((∀ x ∈ scoring, ¬ lineWon s.ttt_board x) →
      checkVictory s = if s.unoccupiedSq = 0 then 3 else 0) := by
  refine ⟨?_, ?_, ?_⟩
  · unfold checkVictory checkVictoryOn checkVictoryWith evaluateSpec
    rw [checkLines_eq_findSome hb]
    cases scoring.findSome? (lineOwner s.ttt_board) with
    | none => by_cases hu : s.unoccupiedSq = 0 <;> simp [hu, Outcome.code]
    | some sd => simp [Outcome.code]
  · intro pre l post hsc hl hpre
    constructor
    · unfold checkVictory checkVictoryOn checkVictoryWith
      rw [hsc, checkLines_first pre post l hl hpre]
    · rcases hb l.1 with e | e | e
      · exact absurd e hl.1
      · exact Or.inl e
      · exact Or.inr e
  · intro hnone
    unfold checkVictory checkVictoryOn checkVictoryWith
    rw [checkLines_none scoring hnone]

/-- Witness for C1 on the board with the top row held by player 1. -/
theorem checkVictory_refines_evaluate_witness :
    CellsValid ![1, 1, 1, 2, 2, -1, -1, -1, -1] ∧
    checkVictory ⟨1, 1, Player.Human, Player.Computer, 1, 2, 2, 4, 0,
      ![1, 1, 1, 2, 2, -1, -1, -1, -1], fun _ => 0, 0⟩ = 1 :=
  ⟨by decide, by
    have h := (checkVictory_refines_evaluate ⟨1, 1, Player.Human, Player.Computer, 1, 2, 2, 4, 0,
      ![1, 1, 1, 2, 2, -1, -1, -1, -1], fun _ => 0, 0⟩ (by decide)).1
    rw [h]; decide⟩

/-- C2: on the empty board (all nine squares empty, `unoccupiedSq = 9`,
`stackTop = 0`) with player 1 to move the search value is 0: the final
`maxScore` of `runComputer` is 0, every square scores at most 0 and some square
scores 0, and `applyNegamax` called on that state returns 0. -/
theorem empty_board_value_zero (fuel : Nat) (s : State) (hfuel : 9 < fuel)
    (hboard : s.ttt_board = emptyBoard) (hu : s.unoccupiedSq = 9) (hst : s.stackTop = 0)
    (hside : s.negamaxCurrPlayer = 1) :
    runComputerValue fuel s = some 0 ∧
    (∀ j : Fin 9, ∃ v, moveScore fuel s ((j : Nat) : Int) = some v ∧ v ≤ 0) ∧
    (∃ j : Fin 9, moveScore fuel s ((j : Nat) : Int) = some 0) ∧
    (∃ s1, applyNegamax fuel s = some (0, s1)) := by
  have hsv : SideValid s.negamaxCurrPlayer := Or.inl hside
  have hr : SearchReady s := searchReady_of_stackTop (by omega) (by omega) hsv
  have hec : emptyCount s.ttt_board = 9 := by rw [hboard]; exact emptyCount_emptyBoard
  have hn : emptyCount s.ttt_board ≤ fuel := by omega
  have hmax : maxScoreLoop ((List.finRange 9).map
      (scoreOf (negamaxValue fuel) s.ttt_board s.unoccupiedSq s.negamaxCurrPlayer)) (-3) = 0 := by
    rw [← negamaxValue_ongoing (by rw [hboard, hu]; exact checkVictoryOn_emptyBoard),
      negamaxValue_fuel_succ fuel _ _ _ hsv (by omega), hboard, hu, hside]
    exact negamaxValue_emptyBoard_fuel hfuel
  have hempty : ∀ j : Fin 9, s.ttt_board j = -1 := fun j => by rw [hboard]; rfl
  refine ⟨by rw [runComputerValue_eq hr hn, hmax], ?_, ?_, ?_⟩
  · intro j
    refine ⟨_, moveScore_eq hr hn (hempty j), ?_⟩
    rw [← hmax]
    exact maxScoreLoop_ge_mem _ _ _ (List.mem_map.mpr ⟨j, List.mem_finRange j, rfl⟩)
  · rcases maxScoreLoop_mem ((List.finRange 9).map
      (scoreOf (negamaxValue fuel) s.ttt_board s.unoccupiedSq s.negamaxCurrPlayer)) (-3)
      with h | h
    · rw [hmax] at h; omega
    · rw [hmax] at h
      obtain ⟨j, _, hj⟩ := List.mem_map.mp h
      exact ⟨j, by rw [moveScore_eq hr hn (hempty j), hj]⟩
  · obtain ⟨bs, happ, _⟩ := applyNegamax_ok fuel s hr (by omega)
    refine ⟨{ s with board_stack := bs }, ?_⟩
    rw [happ, hboard, hu, hside, negamaxValue_emptyBoard_fuel hfuel]

/-- Witness for C2 at the state after `drawboard()` and `setPlayer`, with the
virtual player set to the current player as `computerMove` does. -/
theorem empty_board_value_zero_witness :
    runComputerValue 10 (stateOf emptyBoard 1) = some 0 ∧
    (∀ j : Fin 9, ∃ v, moveScore 10 (stateOf emptyBoard 1) ((j : Nat) : Int) = some v ∧ v ≤ 0) ∧
    (∃ j : Fin 9, moveScore 10 (stateOf emptyBoard 1) ((j : Nat) : Int) = some 0) ∧
    (∃ s1, applyNegamax 10 (stateOf emptyBoard 1) = some (0, s1)) :=
  empty_board_value_zero 10 (stateOf emptyBoard 1) (by decide) rfl
    (by show ((emptyCount emptyBoard : Nat) : Int) = 9; rw [emptyCount_emptyBoard]; rfl)
    rfl rfl

/-- C3: on a board with cells in `{-1, 1, 2}`, at least one empty square, an
exact counter, an empty stack and side 1 or 2 to move, `runComputer` returns a
square index in `0..8` whose square is empty; every empty square scores `-1`,
`0` or `1` and every occupied square scores `-2`. -/
theorem runComputer_proposes_empty_cell (fuel : Nat) (s : State) (hfuel : 9 < fuel)
    (hb : CellsValid s.ttt_board) (hpos : ∃ i, s.ttt_board i = -1) (hc : CountExact s)
    (hst : s.stackTop = 0) (hside : SideValid s.negamaxCurrPlayer) :
    ∃ (i : Fin 9) (s1 s2 : State) (sc : Fin 9 → Int),
      runComputer fuel s = some (((i : Nat) : Int), s2) ∧ s.ttt_board i = -1 ∧
      runComputerScores fuel s = some ((List.finRange 9).map sc, s1) ∧
      (∀ j, s.ttt_board j = -1 →
        moveScore fuel s ((j : Nat) : Int) = some (sc j) ∧ (sc j = -1 ∨ sc j = 0 ∨ sc j = 1)) ∧
      (∀ j, s.ttt_board j ≠ -1 → sc j = -2) := by
  have hr : SearchReady s := searchReady_of_stackTop (by omega) (by omega) hside
  have hn : emptyCount s.ttt_board ≤ fuel := le_trans (emptyCount_le _) (by omega)
  obtain ⟨i, bs, hrun, _, hi, _, _, _⟩ := runComputer_choice hr hb hc hn hpos
  obtain ⟨bs1, hsc, _⟩ := runComputerScores_ok hr hn
  refine ⟨i, _, _, _, hrun, hi, hsc, ?_, ?_⟩
  · intro j hj
    refine ⟨moveScore_eq hr hn hj, ?_⟩
    have := scoreOf_range fuel hb hside hc hn hj
    omega
  · intro j hj
    exact scoreOf_occupied _ _ _ hj

/-- Witness for C3 on the scenario board with player 1 to move. -/
theorem runComputer_proposes_empty_cell_witness :
    ∃ (i : Fin 9) (s1 s2 : State) (sc : Fin 9 → Int),
      runComputer 10 (stateOf scenarioBoard 1) = some (((i : Nat) : Int), s2) ∧
      (stateOf scenarioBoard 1).ttt_board i = -1 ∧
      runComputerScores 10 (stateOf scenarioBoard 1) = some ((List.finRange 9).map sc, s1) ∧
      (∀ j, (stateOf scenarioBoard 1).ttt_board j = -1 →
        moveScore 10 (stateOf scenarioBoard 1) ((j : Nat) : Int) = some (sc j) ∧
          (sc j = -1 ∨ sc j = 0 ∨ sc j = 1)) ∧
      (∀ j, (stateOf scenarioBoard 1).ttt_board j ≠ -1 → sc j = -2) :=
  runComputer_proposes_empty_cell 10 (stateOf scenarioBoard 1) (by decide) (by decide)
    ⟨2, by decide⟩ rfl rfl (by decide)

/-- C4: from a state with side 1 or 2 to move and `0 ≤ stackTop ≤ 91`, both
`runComputer` and `applyNegamax` return, and after the call `stackTop`, every
cell of `ttt_board`, `unoccupiedSq`, `negamaxCurrPlayer` and `currPlayer` have
their values from before the call, as do the stack entries below `stackTop`; a
search started with an empty stack ends with an empty stack.  Validity of the
cells and exactness of the counter are not needed. -/
theorem search_leaks_no_move (fuel : Nat) (s : State) (hfuel : 9 < fuel)
    (hside : SideValid s.negamaxCurrPlayer) (h0 : 0 ≤ s.stackTop) (h91 : s.stackTop ≤ 91) :
    (∃ m s1, runComputer fuel s = some (m, s1) ∧ s1.stackTop = s.stackTop ∧
      s1.ttt_board = s.ttt_board ∧ s1.unoccupiedSq = s.unoccupiedSq ∧
      s1.negamaxCurrPlayer = s.negamaxCurrPlayer ∧ s1.currPlayer = s.currPlayer ∧
      StackKept s s1.board_stack ∧ (s.stackTop = 0 → s1.stackTop = 0)) ∧
    (∃ v s1, applyNegamax fuel s = some (v, s1) ∧ s1.stackTop = s.stackTop ∧
      s1.ttt_board = s.ttt_board ∧ s1.unoccupiedSq = s.unoccupiedSq ∧
      s1.negamaxCurrPlayer = s.negamaxCurrPlayer ∧ s1.currPlayer = s.currPlayer ∧
      StackKept s s1.board_stack ∧ (s.stackTop = 0 → s1.stackTop = 0)) := by
  have hr : SearchReady s := searchReady_of_stackTop h0 h91 hside
  have hn : emptyCount s.ttt_board ≤ fuel := le_trans (emptyCount_le _) (by omega)
  constructor
  · obtain ⟨m, bs, hrun, hk⟩ := runComputer_frame hr hn
    exact ⟨m, _, hrun, rfl, rfl, rfl, rfl, rfl, hk, fun h => h⟩
  · obtain ⟨bs, hrun, hk⟩ := applyNegamax_ok fuel s hr
      (lt_of_le_of_lt (emptyCount_le _) hfuel)
    exact ⟨_, _, hrun, rfl, rfl, rfl, rfl, rfl, hk, fun h => h⟩

/-- Witness for C4 on the scenario board with player 1 to move. -/
theorem search_leaks_no_move_witness :
    (∃ m s1, runComputer 10 (stateOf scenarioBoard 1) = some (m, s1) ∧
      s1.stackTop = (stateOf scenarioBoard 1).stackTop ∧
      s1.ttt_board = (stateOf scenarioBoard 1).ttt_board ∧
      s1.unoccupiedSq = (stateOf scenarioBoard 1).unoccupiedSq ∧
      s1.negamaxCurrPlayer = (stateOf scenarioBoard 1).negamaxCurrPlayer ∧
      s1.currPlayer = (stateOf scenarioBoard 1).currPlayer ∧
      StackKept (stateOf scenarioBoard 1) s1.board_stack ∧
      ((stateOf scenarioBoard 1).stackTop = 0 → s1.stackTop = 0)) ∧
    (∃ v s1, applyNegamax 10 (stateOf scenarioBoard 1) = some (v, s1) ∧
      s1.stackTop = (stateOf scenarioBoard 1).stackTop ∧
      s1.ttt_board = (stateOf scenarioBoard 1).ttt_board ∧
      s1.unoccupiedSq = (stateOf scenarioBoard 1).unoccupiedSq ∧
      s1.negamaxCurrPlayer = (stateOf scenarioBoard 1).negamaxCurrPlayer ∧
      s1.currPlayer = (stateOf scenarioBoard 1).currPlayer ∧
      StackKept (stateOf scenarioBoard 1) s1.board_stack ∧
      ((stateOf scenarioBoard 1).stackTop = 0 → s1.stackTop = 0)) :=
  search_leaks_no_move 10 (stateOf scenarioBoard 1) (by decide) (by decide) (by decide)
    (by decide)

/-- C5: on a valid board with an exact counter and at least one empty square,
`runComputer` returns the smallest index `i` of an empty square whose score,
the negated result of `applyNegamax` after placing the mover's mark there, is
the maximum of the scores of the empty squares; that maximum is the final
`maxScore`, the value of the position; every such score is between `-1` and
`1`. -/
theorem runComputer_argmax_lowest_index (fuel : Nat) (s : State) (hfuel : 9 < fuel)
    (hb : CellsValid s.ttt_board) (hc : CountExact s) (hpos : ∃ i, s.ttt_board i = -1)
    (hside : SideValid s.negamaxCurrPlayer) (h0 : 0 ≤ s.stackTop) (h91 : s.stackTop ≤ 91) :
    ∃ (i : Fin 9) (s1 : State) (sc : Fin 9 → Int),
      runComputer fuel s = some (((i : Nat) : Int), s1) ∧
      runComputerValue fuel s = some (sc i) ∧
      (∀ j, s.ttt_board j = -1 →
        moveScore fuel s ((j : Nat) : Int) = some (sc j) ∧ -1 ≤ sc j ∧ sc j ≤ 1) ∧
      s.ttt_board i = -1 ∧
      (∀ j, s.ttt_board j = -1 → sc j ≤ sc i) ∧
      (∀ j, s.ttt_board j = -1 → j < i → sc j < sc i) := by
  have hr : SearchReady s := searchReady_of_stackTop h0 h91 hside
  have hn : emptyCount s.ttt_board ≤ fuel := le_trans (emptyCount_le _) (by omega)
  obtain ⟨i, bs, hrun, hval, hi, hmax, hfirst, _⟩ := runComputer_choice hr hb hc hn hpos
  refine ⟨i, _, _, hrun, hval, ?_, hi, fun j _ => hmax j, fun j _ hj => hfirst j hj⟩
  intro j hj
  exact ⟨moveScore_eq hr hn hj, scoreOf_range fuel hb hside hc hn hj⟩

/-- Witness for C5, the second scenario of the specification: on the board
`[1, 1, -1, 2, 2, -1, -1, -1, -1]` with player 1 to move `runComputer` returns
square 2 and the value of the position is `+1`. -/
theorem runComputer_argmax_lowest_index_witness :
    CellsValid scenarioBoard ∧
    (∃ s1, runComputer 10 (stateOf scenarioBoard 1) = some (2, s1)) ∧
    runComputerValue 10 (stateOf scenarioBoard 1) = some 1 := by
  obtain ⟨i, s1, sc, hrun, hval, hsc, hi, _, hfirst⟩ :=
    runComputer_argmax_lowest_index 10 (stateOf scenarioBoard 1) (by decide) (by decide) rfl
      ⟨2, by decide⟩ (by decide) (by decide) (by decide)
  have h2 : sc 2 = 1 := by
    have := (hsc 2 (by decide)).1
    rw [show (((2 : Fin 9) : Nat) : Int) = 2 from rfl, scenario_score_two] at this
    exact (Option.some.inj this).symm
  have hi2 : i = 2 := by
    by_contra hne
    have hlt : (2 : Fin 9) < i := by
      revert hi hne
      fin_cases i <;> decide
    have hlt2 := hfirst 2 (by decide) hlt
    have hle := (hsc i hi).2.2
    omega
  subst hi2
  refine ⟨by decide, ⟨s1, hrun⟩, ?_⟩
  rw [hval, h2]

/-- C6 (as the code has it): `runComputer` has no guard and never fails on a
board that `checkVictory` classifies as won or drawn.  When no square is empty
it returns square 0 and changes nothing but the static `bestMove`; when a
square is empty it returns an empty square. -/
theorem runComputer_unguarded (fuel : Nat) (s : State) (hfuel : 9 < fuel)
    (hb : CellsValid s.ttt_board) (hc : CountExact s)
    (hst : s.stackTop = 0) (hside : SideValid s.negamaxCurrPlayer) :
    ((∀ i, s.ttt_board i ≠ -1) → runComputer fuel s = some (0, { s with bestMove := 0 })) ∧
    (checkVictory s ≠ 0 → (∃ i, s.ttt_board i = -1) →
      ∃ (i : Fin 9) (s1 : State),
        runComputer fuel s = some (((i : Nat) : Int), s1) ∧ s.ttt_board i = -1) := by
  constructor
  · exact runComputer_full fuel s
  · intro _ hpos
    have hr : SearchReady s := searchReady_of_stackTop (by omega) (by omega) hside
    have hn : emptyCount s.ttt_board ≤ fuel := le_trans (emptyCount_le _) (by omega)
    obtain ⟨i, bs, hrun, _, hi, _⟩ := runComputer_choice hr hb hc hn hpos
    exact ⟨i, _, hrun, hi⟩

/-- Witness for C6 on a board already won by player 1 that has empty squares. -/
theorem runComputer_unguarded_witness :
    CellsValid (stateOf wonBoard 2).ttt_board ∧
    ((∀ i, (stateOf wonBoard 2).ttt_board i ≠ -1) →
      runComputer 10 (stateOf wonBoard 2) = some (0, { stateOf wonBoard 2 with bestMove := 0 })) ∧
    (checkVictory (stateOf wonBoard 2) ≠ 0 → (∃ i, (stateOf wonBoard 2).ttt_board i = -1) →
      ∃ (i : Fin 9) (s1 : State),
        runComputer 10 (stateOf wonBoard 2) = some (((i : Nat) : Int), s1) ∧
          (stateOf wonBoard 2).ttt_board i = -1) :=
  ⟨by decide, runComputer_unguarded 10 (stateOf wonBoard 2) (by decide) (by decide) rfl rfl
    (by decide)⟩

/-- C6 fails as stated: on a drawn board, full and classified 3 by
`checkVictory`, `runComputer` does not fail but returns square 0, which is
occupied. -/
theorem runComputer_fails_loudly_counterexample :
    checkVictory (stateOf drawnBoard 1) = 3 ∧
    (∀ i, (stateOf drawnBoard 1).ttt_board i ≠ -1) ∧
    runComputer 10 (stateOf drawnBoard 1)
      = some (0, { stateOf drawnBoard 1 with bestMove := 0 }) :=
  ⟨by decide, by decide, runComputer_full 10 (stateOf drawnBoard 1) (by decide)⟩

/-- C7: when the selection is on an occupied square `ind` in `0..8`, pressing
Enter in `humanMove` changes nothing: the program is back at the prompt of
`humanMove` with the very same state, so every cell of `ttt_board`,
`unoccupiedSq` and `currPlayer` are unchanged, and on any further keys it
behaves as `humanMove` started from that unchanged state.  The statements after
the recursive call, which would mark the square, are never reached, because the
recursive call never returns. -/
theorem humanMove_occupied_reprompts (fuel : Nat) (s : State) (rest : List Key) (ind : Fin 9)
    (hsel : (s.currGridY - 1) * 3 + (s.currGridX - 1) = ((ind : Nat) : Int))
    (hocc : s.ttt_board ind ≠ -1) :
    humanMove (fuel + 1) s (Key.enter :: rest) = humanMove fuel s rest ∧
    humanMove (fuel + 2) s [Key.enter] = Run.waiting Prompt.move s ∧
    (∀ s1 rest1, humanMove (fuel + 1) s (Key.enter :: rest) ≠ Run.returned s1 rest1) := by
  have hstep : ∀ (f : Nat) (r : List Key),
      humanMove (f + 1) s (Key.enter :: r) = humanMove f s r := by
    intro f r
    rw [humanMove]
    simp only [navigate, hsel, index?_natCast, hocc, ne_eq, not_false_eq_true, if_true]
    exact andThen_of_noReturn ((game_loop_noReturn f).1 s r) _
  refine ⟨hstep fuel rest, ?_, ?_⟩
  · rw [hstep (fuel + 1) []]
    rw [humanMove]
    rfl
  · rw [hstep fuel rest]
    exact (game_loop_noReturn fuel).1 s rest

/-- Witness for C7: player 1 holds the centre, the selection is on the centre
and player 2 presses Enter. -/
theorem humanMove_occupied_reprompts_witness :
    humanMove 1 (switchPlayer (markSquare 4
        { setPlayer Player.Human Player.Human (drawboard initialState) with
          currGridX := 2, currGridY := 2 })) [Key.enter]
      = humanMove 0 (switchPlayer (markSquare 4
        { setPlayer Player.Human Player.Human (drawboard initialState) with
          currGridX := 2, currGridY := 2 })) [] ∧
    humanMove 2 (switchPlayer (markSquare 4
        { setPlayer Player.Human Player.Human (drawboard initialState) with
          currGridX := 2, currGridY := 2 })) [Key.enter]
      = Run.waiting Prompt.move (switchPlayer (markSquare 4
        { setPlayer Player.Human Player.Human (drawboard initialState) with
          currGridX := 2, currGridY := 2 })) ∧
    (∀ s1 rest1, humanMove 1 (switchPlayer (markSquare 4
        { setPlayer Player.Human Player.Human (drawboard initialState) with
          currGridX := 2, currGridY := 2 })) [Key.enter] ≠ Run.returned s1 rest1) :=
  humanMove_occupied_reprompts 0 _ [] 4 (by decide) (by decide)

/-- C8: the counter `unoccupiedSq` equals the number of empty squares after
`drawboard`, and from a state where it does the equality is kept by marking an
empty square for the current player (the move of a human and the application
of the computer's move), by `negamaxMakeMove` on an empty square, by
`negamaxUndoMove` popping an occupied square, by a make followed by its undo,
by a whole call of `runComputer` or `applyNegamax`, by the move `computerMove`
applies, and throughout a whole run of the game loop, which also makes no
out-of-bounds access. -/
theorem counter_always_exact (fuel : Nat) (s : State) (hc : CountExact s) :
    CountExact (drawboard s) ∧
    (∀ i : Fin 9, SideValid s.currPlayer → s.ttt_board i = -1 → CountExact (markSquare i s)) ∧
    (∀ (i : Fin 9) (side : Int) (s1 : State), SideValid side → s.ttt_board i = -1 →
      negamaxMakeMove ((i : Nat) : Int) side s = some s1 → CountExact s1) ∧
    (∀ (k : Fin 100) (i : Fin 9) (s1 : State), index? 100 (s.stackTop - 1) = some k →
      index? 9 (s.board_stack k) = some i → s.ttt_board i ≠ -1 →
      negamaxUndoMove s = some s1 → CountExact s1) ∧
    (∀ (i : Fin 9) (side : Int) (s1 s2 : State), s.ttt_board i = -1 →
      negamaxMakeMove ((i : Nat) : Int) side s = some s1 → negamaxUndoMove s1 = some s2 →
      CountExact s2 ∧ s2.ttt_board = s.ttt_board) ∧
    (9 < fuel → SideValid s.negamaxCurrPlayer → 0 ≤ s.stackTop → s.stackTop ≤ 91 →
      (∃ m s1, runComputer fuel s = some (m, s1) ∧ CountExact s1) ∧
      (∃ v s1, applyNegamax fuel s = some (v, s1) ∧ CountExact s1)) ∧
    (9 < fuel → CellsValid s.ttt_board → s.stackTop = 0 → SideValid s.currPlayer →
      checkVictory s = 0 →
      ∃ (m : Int) (s1 : State) (i : Fin 9),
        runComputer fuel { s with negamaxCurrPlayer := s.currPlayer } = some (m, s1) ∧
        index? 9 m = some i ∧ CountExact (markSquare i s1)) ∧
    (s.stackTop = 0 → ∀ keys, (startGame fuel s keys).Exact) := by
  refine ⟨drawboard_exact s, ?_, ?_, ?_, ?_, ?_, ?_, ?_⟩
  · intro i hp hi
    exact markSquare_exact i hc hp hi
  · intro i side s1 hside hi hmk
    exact makeMove_exact i hc hside hi hmk
  · intro k i s1 hk hi hocc hun
    exact undoMove_exact hc hk hi hocc hun
  · intro i side s1 s2 hi hmk hun
    obtain ⟨hb, hu, _⟩ := makeMove_undoMove i hi hmk hun
    refine ⟨?_, hb⟩
    unfold CountExact at hc ⊢
    rw [hb, hu]
    exact hc
  · intro hfuel hside h0 h91
    have hr : SearchReady s := searchReady_of_stackTop h0 h91 hside
    have hn : emptyCount s.ttt_board ≤ fuel := le_trans (emptyCount_le _) (by omega)
    constructor
    · obtain ⟨m, bs, hrun, _⟩ := runComputer_frame hr hn
      exact ⟨m, _, hrun, hc⟩
    · obtain ⟨bs, hrun, _⟩ := applyNegamax_ok fuel s hr (lt_of_le_of_lt (emptyCount_le _) hfuel)
      exact ⟨_, _, hrun, hc⟩
  · intro hfuel hb hst hp h0
    have hr : SearchReady { s with negamaxCurrPlayer := s.currPlayer } :=
      searchReady_of_stackTop (by show 0 ≤ s.stackTop; omega)
        (by show s.stackTop ≤ 91; omega) hp
    have hn : emptyCount s.ttt_board ≤ fuel := le_trans (emptyCount_le _) (by omega)
    obtain ⟨j, bs, hrun, _, hj, _⟩ :=
      runComputer_choice (s := { s with negamaxCurrPlayer := s.currPlayer }) hr hb hc hn
        (exists_empty_of_ongoing hb hc h0)
    exact ⟨_, _, j, hrun, index?_natCast 9 j,
      markSquare_exact (s := { s with
        negamaxCurrPlayer := s.currPlayer
        board_stack := bs
        bestMove := ((j : Nat) : Int) }) j hc hp hj⟩
  · intro hst keys
    exact (game_loop_exact fuel).2.2.2 s keys hc hst

/-- Witness for C8 at program start: the counter is exact in the initial state,
after `drawboard`, and in every state in which the game loop, started at
program start, waits for a key or exits, whatever keys are pressed. -/
theorem counter_always_exact_witness :
    CountExact initialState ∧ CountExact (drawboard initialState) ∧
    (initialState.stackTop = 0 → ∀ keys, (startGame 6 initialState keys).Exact) :=
  ⟨initialState_exact, (counter_always_exact 6 initialState initialState_exact).1,
    (counter_always_exact 6 initialState initialState_exact).2.2.2.2.2.2.2⟩

/-- C9: on every board reachable by legal play there are no two lines of the
table of which one is fully marked by side 1 and the other by side 2; hence
`checkVictory` gives the same result for every order in which the eight lines
are scanned. -/
theorem legal_play_single_winner (s : State) (h : LegalPlay s) :
    (¬ ∃ l1 ∈ scoring, ∃ l2 ∈ scoring, LineOf s.ttt_board l1 1 ∧ LineOf s.ttt_board l2 2) ∧
    (∀ table : List (Fin 9 × Fin 9 × Fin 9), table.Perm scoring →
      checkVictoryWith table s.ttt_board s.unoccupiedSq = checkVictory s) := by
  obtain ⟨_, _, hone⟩ := legalPlay_invariant h
  constructor
  · rintro ⟨l1, hl1, l2, hl2, ⟨a1, a2, a3⟩, ⟨b1, b2, b3⟩⟩
    have w1 : lineWon s.ttt_board l1 := ⟨by rw [a1]; decide, by rw [a1, a2], by rw [a2, a3]⟩
    have w2 : lineWon s.ttt_board l2 := ⟨by rw [b1]; decide, by rw [b1, b2], by rw [b2, b3]⟩
    have := hone l1 hl1 l2 hl2 w1 w2
    rw [a1, b1] at this
    exact absurd this (by decide)
  · intro table hperm
    exact checkVictoryWith_perm hone _ hperm

/-- Witness for C9: a game played to a win.  After the moves 0, 3, 1, 4, 2 the
state `wonGame` is reachable by legal play, its board is
`[1, 1, 1, 2, 2, -1, -1, -1, -1]` with the top row completed by player 1, and
`checkVictory` is 1 for every order of the line table. -/
theorem legal_play_single_winner_witness :
    LegalPlay wonGame ∧ wonGame.ttt_board = wonBoard ∧ checkVictory wonGame = 1 ∧
    lineWon wonGame.ttt_board (0, 1, 2) ∧
    (¬ ∃ l1 ∈ scoring, ∃ l2 ∈ scoring,
      LineOf wonGame.ttt_board l1 1 ∧ LineOf wonGame.ttt_board l2 2) ∧
    (∀ table : List (Fin 9 × Fin 9 × Fin 9), table.Perm scoring →
      checkVictoryWith table wonGame.ttt_board wonGame.unoccupiedSq = checkVictory wonGame) := by
  have hplay : LegalPlay wonGame :=
    LegalPlay.move _ 2
      (LegalPlay.move _ 4
        (LegalPlay.move _ 1
          (LegalPlay.move _ 3
            (LegalPlay.move _ 0 (LegalPlay.start initialState Player.Human Player.Human)
              (by decide) (by decide))
            (by decide) (by decide))
          (by decide) (by decide))
        (by decide) (by decide))
      (by decide) (by decide)
  exact ⟨hplay, by decide, by decide, by decide, legal_play_single_winner wonGame hplay⟩

/-- C10: in a game from the empty board in which side `e` always plays the
square returned by `runComputer` and the other side plays arbitrary empty
squares, `checkVictory` is never the opponent's mark: once it is not 0 it is
the engine's mark or 3; and whenever the engine is to move, `runComputer`
returns an empty square. -/
theorem engine_never_loses (e : Int) (fuel : Nat) (he : SideValid e) (hfuel : 9 < fuel)
    (s : State) (h : EnginePlay e fuel s) :
    checkVictory s ≠ Int.xor e 3 ∧
    (checkVictory s ≠ 0 → checkVictory s = e ∨ checkVictory s = 3) ∧
    (checkVictory s = 0 → s.currPlayer = e →
      ∃ (m : Int) (s1 : State) (i : Fin 9),
        runComputer fuel { s with negamaxCurrPlayer := s.currPlayer } = some (m, s1) ∧
        index? 9 m = some i ∧ s.ttt_board i = -1) := by
  obtain ⟨hb, hc, hst, hp, hopp, _⟩ := enginePlay_safe he hfuel h
  refine ⟨hopp, ?_, ?_⟩
  · intro hne
    rcases checkVictoryOn_cases hb s.unoccupiedSq with ⟨l, _, _, e1, hm⟩ | ⟨_, _, e1⟩ | ⟨_, _, e1⟩
    · left
      have hv : SideValid (checkVictory s) := by
        show SideValid (checkVictoryOn s.ttt_board s.unoccupiedSq)
        rw [e1]; exact hm
      by_contra hce
      exact hopp (sideValid_other hv he hce).1
    · right; exact e1
    · exact absurd e1 hne
  · intro h0 _
    have hr : SearchReady { s with negamaxCurrPlayer := s.currPlayer } :=
      searchReady_of_stackTop (by show 0 ≤ s.stackTop; omega)
        (by show s.stackTop ≤ 91; omega) hp
    have hn : emptyCount s.ttt_board ≤ fuel := le_trans (emptyCount_le _) (by omega)
    obtain ⟨j, bs, hrun, _, hj, _⟩ :=
      runComputer_choice (s := { s with negamaxCurrPlayer := s.currPlayer }) hr hb hc hn
        (exists_empty_of_ongoing hb hc h0)
    exact ⟨_, _, j, hrun, index?_natCast 9 j, hj⟩

/-- Witness for C10: a game played to its end with the engine as player 1.  The
engine opens on square 0, the opponent takes the centre, the engine takes
square 1, the opponent takes square 3 instead of blocking, and the engine
completes the top row on square 2.  The final state is reached through the
moves `runComputer` returns, its board is `[1, 1, 1, 2, 2, -1, -1, -1, -1]` and
`checkVictory` is 1, the engine's mark. -/
theorem engine_never_loses_witness :
    SideValid 1 ∧ 9 < 10 ∧
    ∃ s : State, EnginePlay 1 10 s ∧ s.ttt_board = wonBoard ∧ checkVictory s = 1 ∧
      checkVictory s ≠ Int.xor 1 3 ∧
      (checkVictory s ≠ 0 → checkVictory s = 1 ∨ checkVictory s = 3) ∧
      (checkVictory s = 0 → s.currPlayer = 1 →
        ∃ (m : Int) (s1 : State) (i : Fin 9),
          runComputer 10 { s with negamaxCurrPlayer := s.currPlayer } = some (m, s1) ∧
          index? 9 m = some i ∧ s.ttt_board i = -1) := by
  have he : SideValid 1 := Or.inl rfl
  -- the start of the game
  have hplay0 : EnginePlay 1 10 (newGame Player.Computer Player.Human initialState) :=
    EnginePlay.start initialState Player.Computer Player.Human rfl
  have p0 : Position (newGame Player.Computer Player.Human initialState)
      [0, 0, 0, 0, 0, 0, 0, 0, 0] 9 1 := ⟨boardOf_zeros.symm, rfl, rfl⟩
  have h00 := checkVictory_newGame Player.Computer Player.Human initialState
  -- the engine opens on square 0
  have hbest1 := best_of_draw (b := boardOf [0, 0, 0, 0, 0, 0, 0, 0, 0]) (u := 9) (p := 1) he
    (by decide) 0 (by decide)
    (by rw [boardOf_zeros]; exact le_of_eq negamaxValue_emptyBoard)
    (by
      have h := value_le_of_check (Or.inr ⟨rfl, rfl⟩) (by decide) check_after_corner
      have e1 : Function.update (boardOf [0, 0, 0, 0, 0, 0, 0, 0, 0]) 0 1
          = boardOf [1, 0, 0, 0, 0, 0, 0, 0, 0] := by decide
      rw [e1]
      exact h)
  obtain ⟨s1, hplay1, p1⟩ := enginePlay_engine_move he hplay0 p0 h00 0 (by decide)
    (by decide) hbest1
  obtain ⟨h10, q1⟩ := (position_afterMove p1 0 1 rfl (by decide)
    (show [0, 0, 0, 0, 0, 0, 0, 0, 0].set ((0 : Fin 9) : Nat) 1 = [1, 0, 0, 0, 0, 0, 0, 0, 0]
      from rfl)
    (show (9 : Int) - 1 = 8 by decide)).1 (by decide)
  -- the opponent takes the centre
  have hplay2 : EnginePlay 1 10 (afterMove 4 (afterMove 0 s1)) :=
    EnginePlay.opponent _ 4 hplay1 h10 (by rw [q1.2.2]; decide) (by rw [q1.1]; decide)
  obtain ⟨h20, q2⟩ := (position_afterMove q1 4 2 rfl (by decide)
    (show [1, 0, 0, 0, 0, 0, 0, 0, 0].set ((4 : Fin 9) : Nat) 2 = [1, 0, 0, 0, 2, 0, 0, 0, 0]
      from rfl)
    (show (8 : Int) - 1 = 7 by decide)).1 (by decide)
  have q2b : Position (afterMove 4 (afterMove 0 s1)) [1, 0, 0, 0, 2, 0, 0, 0, 0] 7 1 :=
    ⟨q2.1, q2.2.1, by rw [q2.2.2]; decide⟩
  -- the engine takes square 1
  have hbest2 := best_of_draw (b := boardOf [1, 0, 0, 0, 2, 0, 0, 0, 0]) (u := 7) (p := 1) he
    (by decide) 1 (by decide)
    (value_le_of_check (Or.inl ⟨rfl, rfl⟩) (by decide) check_after_centre)
    (by
      have h := value_le_of_check (Or.inr ⟨rfl, rfl⟩) (by decide) check_after_edge
      have e1 : Function.update (boardOf [1, 0, 0, 0, 2, 0, 0, 0, 0]) 1 1
          = boardOf [1, 1, 0, 0, 2, 0, 0, 0, 0] := by decide
      rw [e1]
      exact h)
  obtain ⟨s3, hplay3, p3⟩ := enginePlay_engine_move he hplay2 q2b h20 1 (by decide)
    (by decide) hbest2
  obtain ⟨h30, q3⟩ := (position_afterMove p3 1 1 rfl (by decide)
    (show [1, 0, 0, 0, 2, 0, 0, 0, 0].set ((1 : Fin 9) : Nat) 1 = [1, 1, 0, 0, 2, 0, 0, 0, 0]
      from rfl)
    (show (7 : Int) - 1 = 6 by decide)).1 (by decide)
  -- the opponent takes square 3 and leaves the top row open
  have hplay4 : EnginePlay 1 10 (afterMove 3 (afterMove 1 s3)) :=
    EnginePlay.opponent _ 3 hplay3 h30 (by rw [q3.2.2]; decide) (by rw [q3.1]; decide)
  obtain ⟨h40, q4⟩ := (position_afterMove q3 3 2 rfl (by decide)
    (show [1, 1, 0, 0, 2, 0, 0, 0, 0].set ((3 : Fin 9) : Nat) 2 = [1, 1, 0, 2, 2, 0, 0, 0, 0]
      from rfl)
    (show (6 : Int) - 1 = 5 by decide)).1 (by decide)
  have q4b : Position (afterMove 3 (afterMove 1 s3)) [1, 1, 0, 2, 2, 0, 0, 0, 0] 5 1 :=
    ⟨q4.1, q4.2.1, by rw [q4.2.2]; decide⟩
  -- the engine completes the top row
  have hbest3 := best_of_win (b := boardOf [1, 1, 0, 2, 2, 0, 0, 0, 0]) (u := 5) (p := 1)
    (by decide) he (by decide) 2 (by decide) (by decide)
  obtain ⟨s5, hplay5, p5⟩ := enginePlay_engine_move he hplay4 q4b h40 2 (by decide)
    (by decide) hbest3
  obtain ⟨h50, q5⟩ := (position_afterMove p5 2 1 rfl (by decide)
    (show [1, 1, 0, 2, 2, 0, 0, 0, 0].set ((2 : Fin 9) : Nat) 1 = [1, 1, 1, 2, 2, 0, 0, 0, 0]
      from rfl)
    (show (5 : Int) - 1 = 4 by decide)).2 (by decide)
  refine ⟨he, by decide, afterMove 2 s5, hplay5, ?_, ?_,
    engine_never_loses 1 10 he (by decide) (afterMove 2 s5) hplay5⟩
  · rw [q5.1]
    decide
  · rw [h50]
    decide

end TicTacToe
